import Mathlib

/-!
Verification of the `algopy` graph-algorithm workspace.

This file gives a shallow embedding of the Python sources
(`algopy/data_structures/heap.py`, `algopy/algorithms/graphs.py`,
`algopy/algorithms/bfs_dfs.py`) and proves or refutes the frozen claims
about them.

Modelling conventions:
* Python `int` indices are `ℤ`; Python's negative list indexing and
  `IndexError` are modelled by `pyIdx`/`pyGet`/`pySet`, where `none`
  stands for an uncaught `IndexError`.
* Python `float` values are modelled exactly as IEEE-754 binary64: a
  float is the dyadic rational it denotes, `fl` rounds a rational to the
  nearest binary64 value (ties to even), addition is exact addition
  followed by `fl` (`flAdd`), and `round(x, 3)` is CPython's semantics —
  the exact binary value rounded half-to-even to three decimal digits and
  converted back to the nearest binary64 (`round3f`).  `float('inf')` is
  the `⊤` of `WithTop ℚ`.
* Generators are modelled as functions returning the list of yielded
  snapshots together with an outcome marker; a raised exception shows up
  as an explicit outcome (`none` for heap helpers).
* Recursions that Python runs on the call stack are given explicit fuel;
  the wrappers supply fuel that is provably sufficient, so exhaustion is
  unreachable (it is still represented honestly: heap helpers return
  `none`, traversal drivers report a `fuelOut` marker).
-/

namespace Algopy

/-- A heap entry, mirroring the Python dict `{"item": item, "value": value}`
built by `MinHeap.insert` / `MaxHeap.insert`. -/
structure HEntry (α : Type) (β : Type) where
  item : α
  value : β
deriving DecidableEq, Repr

/-- Python list indexing: `0 ≤ i < n` addresses position `i`, a negative
`i ≥ -n` addresses position `i + n`, anything else raises `IndexError`
(modelled as `none`). -/
def pyIdx (n : ℕ) (i : ℤ) : Option ℕ :=
  if 0 ≤ i then (if i < (n : ℤ) then some i.toNat else none)
  else (if 0 ≤ i + (n : ℤ) then some (i + (n : ℤ)).toNat else none)

/-- Python `l[i]` (read). -/
def pyGet {γ : Type} (l : List γ) (i : ℤ) : Option γ :=
  (pyIdx l.length i).bind (fun k => l[k]?)

/-- Python `l[i] = x` (write). -/
def pySet {γ : Type} (l : List γ) (i : ℤ) (x : γ) : Option (List γ) :=
  (pyIdx l.length i).map (fun k => l.set k x)

/-- Python's simultaneous assignment `l[i], l[j] = l[j], l[i]`: both right-hand
sides are read first, then the two cells are written. -/
def pySwap {γ : Type} (l : List γ) (i j : ℤ) : Option (List γ) := do
  let a ← pyGet l i
  let b ← pyGet l j
  let l1 ← pySet l i b
  pySet l1 j a

/-- Python truthiness of an optional integer: `None` and `0` are falsy. -/
def intTruthy : Option ℤ → Bool
  | none => false
  | some x => x != 0

section HeapDefs

variable {α β : Type}

/-- `Heap._get_parent_index`: `None` on an empty heap or at the root,
otherwise `(index - 1) // 2` (Python floor division). -/
def getParentIndex (l : List (HEntry α β)) (i : ℤ) : Option ℤ :=
  if l.isEmpty then none
  else if i = 0 then none
  else some ((i - 1).fdiv 2)

/-- `Heap._get_left_index`: `None` on an empty heap, else `2*index + 1`
unless that is `≥ len(elements)`. -/
def getLeftIndex (l : List (HEntry α β)) (i : ℤ) : Option ℤ :=
  if l.isEmpty then none
  else if (l.length : ℤ) ≤ 2 * i + 1 then none
  else some (2 * i + 1)

/-- `Heap._get_right_index`: `None` on an empty heap, else `2*index + 2`
unless that is `≥ len(elements)`. -/
def getRightIndex (l : List (HEntry α β)) (i : ℤ) : Option ℤ :=
  if l.isEmpty then none
  else if (l.length : ℤ) ≤ 2 * i + 2 then none
  else some (2 * i + 2)

/-- `MinHeap._heapify_up` with explicit fuel.  The recursion moves to the
parent index; fuel `i.natAbs + 1` always suffices, because `natAbs` strictly
decreases except at the fixed points `-1` and `-2`, where the base-case
comparison of a cell with itself succeeds and the function returns. -/
def minHeapifyUpGo [LinearOrder β] :
    ℕ → List (HEntry α β) → ℤ → Option (List (HEntry α β))
  | 0, _, _ => none
  | fuel + 1, l, i =>
    match getParentIndex l i with
    | none => some l
    | some p => do
      let ep ← pyGet l p
      let ei ← pyGet l i
      if ep.value ≤ ei.value then some l
      else if ei.value < ep.value then do
        let l1 ← pySwap l p i
        minHeapifyUpGo fuel l1 p
      else some l

/-- `MinHeap._heapify_up` (wrapper supplying sufficient fuel). -/
def minHeapifyUp [LinearOrder β] (l : List (HEntry α β)) (i : ℤ) :
    Option (List (HEntry α β)) :=
  minHeapifyUpGo (i.natAbs + 1) l i

/-- One candidate-selection line of `_heapify_down` in a `MinHeap`:
`if cand_index and self.elements[cand_index]["value"] < self.elements[best]["value"]: best = cand_index`
with Python's short-circuit `and` (a falsy index skips the comparison) and
read order; `none` models an `IndexError` raised by a read. -/
def minPickSmaller [LinearOrder β] (l : List (HEntry α β)) (cand : Option ℤ)
    (best : ℤ) : Option ℤ :=
  if intTruthy cand then do
    let ec ← pyGet l (cand.getD 0)
    let eb ← pyGet l best
    pure (if ec.value < eb.value then cand.getD 0 else best)
  else pure best

/-- `MinHeap._heapify_down` with explicit fuel.  For a nonnegative index the
recursion moves to a child index `< len`, so fuel `len + 1` suffices; for a
negative index the child index is strictly more negative, so the accessed
cell leaves the valid range (raising `IndexError`) after at most `len`
steps.  Fuel `len + i.natAbs + 2` therefore always suffices. -/
def minHeapifyDownGo [LinearOrder β] :
    ℕ → List (HEntry α β) → ℤ → Option (List (HEntry α β))
  | 0, _, _ => none
  | fuel + 1, l, i =>
    if ¬ intTruthy (getLeftIndex l i) ∧ ¬ intTruthy (getRightIndex l i) then some l
    else do
      let s1 ← minPickSmaller l (getLeftIndex l i) i
      let s2 ← minPickSmaller l (getRightIndex l i) s1
      if s2 ≠ i then do
        let l1 ← pySwap l i s2
        minHeapifyDownGo fuel l1 s2
      else some l

/-- `MinHeap._heapify_down` (wrapper supplying sufficient fuel). -/
def minHeapifyDown [LinearOrder β] (l : List (HEntry α β)) (i : ℤ) :
    Option (List (HEntry α β)) :=
  minHeapifyDownGo (l.length + i.natAbs + 2) l i

/-- `MinHeap.change_key`: silently a no-op when the heap is empty or
`index >= len(elements)`; otherwise rewrites the value in place and restores
order upwards (value decreased) or downwards (otherwise). -/
def minChangeKey [LinearOrder β] (l : List (HEntry α β)) (index : ℤ)
    (newVal : β) : Option (List (HEntry α β)) :=
  if l.isEmpty ∨ (l.length : ℤ) ≤ index then some l
  else do
    let cur ← pyGet l index
    let l1 ← pySet l index ⟨cur.item, newVal⟩
    if newVal < cur.value then minHeapifyUp l1 index
    else minHeapifyDown l1 index

/-- `MinHeap.insert`: append `{item, value}` and heapify up from the last
position. -/
def minInsert [LinearOrder β] (l : List (HEntry α β)) (item : α) (value : β) :
    Option (List (HEntry α β)) :=
  let l1 := l ++ [HEntry.mk item value]
  minHeapifyUp l1 ((l1.length : ℤ) - 1)

/-- `Heap.pop` as run by a `MinHeap`: `None` on empty (heap unchanged),
otherwise return the root, move the last element to the root, and heapify
down from index `0`.  The outer `none` would be an escaped exception from
`_heapify_down` (provably unreachable from index `0`). -/
def minPop [LinearOrder β] (l : List (HEntry α β)) :
    Option (Option (HEntry α β) × List (HEntry α β)) :=
  match l with
  | [] => some (none, [])
  | [e] => some (some e, [])
  | e :: rest =>
      let lastEl := (e :: rest).getLast (List.cons_ne_nil e rest)
      let l1 := ((e :: rest).dropLast).set 0 lastEl
      (minHeapifyDown l1 0).map (fun l2 => (some e, l2))

/-- `MaxHeap._heapify_up` with explicit fuel (mirror image of the `MinHeap`
version, comparisons reversed exactly as in the source). -/
def maxHeapifyUpGo [LinearOrder β] :
    ℕ → List (HEntry α β) → ℤ → Option (List (HEntry α β))
  | 0, _, _ => none
  | fuel + 1, l, i =>
    match getParentIndex l i with
    | none => some l
    | some p => do
      let ep ← pyGet l p
      let ei ← pyGet l i
      if ei.value ≤ ep.value then some l
      else if ep.value < ei.value then do
        let l1 ← pySwap l p i
        maxHeapifyUpGo fuel l1 p
      else some l

/-- `MaxHeap._heapify_up` (wrapper supplying sufficient fuel). -/
def maxHeapifyUp [LinearOrder β] (l : List (HEntry α β)) (i : ℤ) :
    Option (List (HEntry α β)) :=
  maxHeapifyUpGo (i.natAbs + 1) l i

/-- One candidate-selection line of `_heapify_down` in a `MaxHeap` (the
comparison is reversed: `>` in the source, written here as flipped `<`). -/
def maxPickLarger [LinearOrder β] (l : List (HEntry α β)) (cand : Option ℤ)
    (best : ℤ) : Option ℤ :=
  if intTruthy cand then do
    let ec ← pyGet l (cand.getD 0)
    let eb ← pyGet l best
    pure (if eb.value < ec.value then cand.getD 0 else best)
  else pure best

/-- `MaxHeap._heapify_down` with explicit fuel (mirror image of the
`MinHeap` version). -/
def maxHeapifyDownGo [LinearOrder β] :
    ℕ → List (HEntry α β) → ℤ → Option (List (HEntry α β))
  | 0, _, _ => none
  | fuel + 1, l, i =>
    if ¬ intTruthy (getLeftIndex l i) ∧ ¬ intTruthy (getRightIndex l i) then some l
    else do
      let s1 ← maxPickLarger l (getLeftIndex l i) i
      let s2 ← maxPickLarger l (getRightIndex l i) s1
      if s2 ≠ i then do
        let l1 ← pySwap l i s2
        maxHeapifyDownGo fuel l1 s2
      else some l

/-- `MaxHeap._heapify_down` (wrapper supplying sufficient fuel). -/
def maxHeapifyDown [LinearOrder β] (l : List (HEntry α β)) (i : ℤ) :
    Option (List (HEntry α β)) :=
  maxHeapifyDownGo (l.length + i.natAbs + 2) l i

/-- `MaxHeap.change_key` (mirror image of `MinHeap.change_key`). -/
def maxChangeKey [LinearOrder β] (l : List (HEntry α β)) (index : ℤ)
    (newVal : β) : Option (List (HEntry α β)) :=
  if l.isEmpty ∨ (l.length : ℤ) ≤ index then some l
  else do
    let cur ← pyGet l index
    let l1 ← pySet l index ⟨cur.item, newVal⟩
    if cur.value < newVal then maxHeapifyUp l1 index
    else maxHeapifyDown l1 index

/-- `MaxHeap.insert`. -/
def maxInsert [LinearOrder β] (l : List (HEntry α β)) (item : α) (value : β) :
    Option (List (HEntry α β)) :=
  let l1 := l ++ [HEntry.mk item value]
  maxHeapifyUp l1 ((l1.length : ℤ) - 1)

/-- `Heap.pop` as run by a `MaxHeap`. -/
def maxPop [LinearOrder β] (l : List (HEntry α β)) :
    Option (Option (HEntry α β) × List (HEntry α β)) :=
  match l with
  | [] => some (none, [])
  | [e] => some (some e, [])
  | e :: rest =>
      let lastEl := (e :: rest).getLast (List.cons_ne_nil e rest)
      let l1 := ((e :: rest).dropLast).set 0 lastEl
      (maxHeapifyDown l1 0).map (fun l2 => (some e, l2))

/-- One operation of the heap interface exercised by the sequences in the
heap-invariant claim. -/
inductive HeapOp (α β : Type) where
  | insert (item : α) (value : β)
  | pop
  | change_key (index : ℤ) (newVal : β)
deriving DecidableEq, Repr

/-- Run one operation on a `MinHeap` backing list (`none` = exception). -/
def minApplyOp [LinearOrder β] (l : List (HEntry α β)) :
    HeapOp α β → Option (List (HEntry α β))
  | .insert a v => minInsert l a v
  | .pop => (minPop l).map (·.2)
  | .change_key i v => minChangeKey l i v

/-- Run a sequence of operations on an initially empty `MinHeap`. -/
def minRunOps [LinearOrder β] (ops : List (HeapOp α β)) :
    Option (List (HEntry α β)) :=
  ops.foldlM minApplyOp []

/-- Run one operation on a `MaxHeap` backing list (`none` = exception). -/
def maxApplyOp [LinearOrder β] (l : List (HEntry α β)) :
    HeapOp α β → Option (List (HEntry α β))
  | .insert a v => maxInsert l a v
  | .pop => (maxPop l).map (·.2)
  | .change_key i v => maxChangeKey l i v

/-- Run a sequence of operations on an initially empty `MaxHeap`. -/
def maxRunOps [LinearOrder β] (ops : List (HeapOp α β)) :
    Option (List (HEntry α β)) :=
  ops.foldlM maxApplyOp []

/-- Whether an operation avoids the negative-index `change_key` pitfall:
`change_key` with a nonnegative index, and every other operation. -/
def opIdxOk : HeapOp α β → Bool
  | .change_key i _ => decide (0 ≤ i)
  | _ => true

/-- Parent position in the dense binary-tree encoding (nonnegative side). -/
def parentIdx (i : ℕ) : ℕ := (i - 1) / 2

/-- The min-heap ordering invariant of the backing list: every non-root
position is no smaller than its parent. -/
def IsMinHeap [LinearOrder β] (l : List (HEntry α β)) : Prop :=
  ∀ i : ℕ, 0 < i → ∀ e ∈ l[i]?, ∀ p ∈ l[parentIdx i]?, p.value ≤ e.value

/-- The max-heap ordering invariant of the backing list. -/
def IsMaxHeap [LinearOrder β] (l : List (HEntry α β)) : Prop :=
  ∀ i : ℕ, 0 < i → ∀ e ∈ l[i]?, ∀ p ∈ l[parentIdx i]?, e.value ≤ p.value


/-- Almost-heap predicate for `_heapify_up` (MinHeap): the heap ordering may
fail only on the edge into position `k`, and additionally the would-be
grandparent relation holds across `k` (so a swap at `k` keeps order). -/
def MinUpOk [LinearOrder β] (l : List (HEntry α β)) (k : ℕ) : Prop :=
  (∀ j : ℕ, 0 < j → j ≠ k → ∀ e ∈ l[j]?, ∀ p ∈ l[parentIdx j]?, p.value ≤ e.value) ∧
    (0 < k → ∀ j : ℕ, 0 < j → parentIdx j = k →
      ∀ e ∈ l[j]?, ∀ p ∈ l[parentIdx k]?, p.value ≤ e.value)

/-- Almost-heap predicate for `_heapify_down` (MinHeap): the heap ordering
may fail only on the edges out of position `k`, and the grandparent relation
holds across `k`. -/
def MinDownOk [LinearOrder β] (l : List (HEntry α β)) (k : ℕ) : Prop :=
  (∀ j : ℕ, 0 < j → parentIdx j ≠ k →
      ∀ e ∈ l[j]?, ∀ p ∈ l[parentIdx j]?, p.value ≤ e.value) ∧
    (0 < k → ∀ j : ℕ, 0 < j → parentIdx j = k →
      ∀ e ∈ l[j]?, ∀ p ∈ l[parentIdx k]?, p.value ≤ e.value)

/-- Almost-heap predicate for `_heapify_up` (MaxHeap). -/
def MaxUpOk [LinearOrder β] (l : List (HEntry α β)) (k : ℕ) : Prop :=
  (∀ j : ℕ, 0 < j → j ≠ k → ∀ e ∈ l[j]?, ∀ p ∈ l[parentIdx j]?, e.value ≤ p.value) ∧
    (0 < k → ∀ j : ℕ, 0 < j → parentIdx j = k →
      ∀ e ∈ l[j]?, ∀ p ∈ l[parentIdx k]?, e.value ≤ p.value)

/-- Almost-heap predicate for `_heapify_down` (MaxHeap). -/
def MaxDownOk [LinearOrder β] (l : List (HEntry α β)) (k : ℕ) : Prop :=
  (∀ j : ℕ, 0 < j → parentIdx j ≠ k →
      ∀ e ∈ l[j]?, ∀ p ∈ l[parentIdx j]?, e.value ≤ p.value) ∧
    (0 < k → ∀ j : ℕ, 0 < j → parentIdx j = k →
      ∀ e ∈ l[j]?, ∀ p ∈ l[parentIdx k]?, e.value ≤ p.value)

end HeapDefs



section DijkstraDefs

/-- Python round-half-to-even of a rational: the semantics of `round` at a
value exactly between two representable results. -/
def roundHalfEven (q : ℚ) : ℤ :=
  let f := ⌊q⌋
  let r := q - f
  if r < 1 / 2 then f
  else if 1 / 2 < r then f + 1
  else if f % 2 = 0 then f else f + 1

/-- `round(x, 3)` on the exact rational value. -/
def round3 (q : ℚ) : ℚ := (roundHalfEven (q * 1000) : ℚ) / 1000

/-- `round(x, 3)` on a cost that may be infinite (`round(inf, 3) = inf`). -/
def round3T (x : WithTop ℚ) : WithTop ℚ := x.map round3

/-- One step of a binary search for `⌊log₂ n⌋`: widen the lower bound `lo`
by `w` when `2^(lo+w)` still fits below `n`. -/
def bitStep (n lo w : ℕ) : ℕ := if 2 ^ (lo + w) ≤ n then lo + w else lo

/-- The number of binary digits of `n` (`bits 0 = 0`), by a fixed-width
binary search over the exponent: exact for every `n < 2^256`, far above the
numerators and denominators of the sums of small binary64 values this
program computes (the evaluation stays shallow, unlike a per-bit
recursion). -/
def bits (n : ℕ) : ℕ :=
  let b := bitStep n 0 128
  let b := bitStep n b 64
  let b := bitStep n b 32
  let b := bitStep n b 16
  let b := bitStep n b 8
  let b := bitStep n b 4
  let b := bitStep n b 2
  let b := bitStep n b 1
  if n = 0 then 0 else b + 1

/-- `num / den` rounded to the nearest integer, ties to even (`den > 0`):
the rounding IEEE 754 applies to an exact value at a fixed scale. -/
def divRNE (num den : ℕ) : ℕ :=
  let t := num / den
  let r := num % den
  if 2 * r < den then t
  else if den < 2 * r then t + 1
  else if t % 2 = 0 then t else t + 1

/-- `⌊log₂ (p/q)⌋` for positive `p`, `q`: the bit-count difference brackets
the ratio within a factor of two, and one integer comparison settles the
floor. -/
def flog2 (p q : ℕ) : ℤ :=
  let e0 : ℤ := (bits p : ℤ) - (bits q : ℤ)
  if 0 ≤ e0 then (if q * 2 ^ e0.toNat ≤ p then e0 else e0 - 1)
  else (if q ≤ p * 2 ^ (-e0).toNat then e0 else e0 - 1)

/-- Round a positive rational to the nearest IEEE-754 binary64 value, ties
to even: with `e = ⌊log₂ x⌋`, scaling by `2^(52-e)` puts the significand in
`[2^52, 2^53)`; round it to an integer half-to-even and scale back. -/
def flPos (x : ℚ) : ℚ :=
  let p := x.num.toNat
  let q := x.den
  let s := 52 - flog2 p q
  if 0 ≤ s then mkRat ((divRNE (p * 2 ^ s.toNat) q : ℕ) : ℤ) (2 ^ s.toNat)
  else mkRat ((divRNE p (q * 2 ^ (-s).toNat) * 2 ^ (-s).toNat : ℕ) : ℤ) 1

/-- The IEEE-754 binary64 value (a CPython `float`) nearest a rational,
rounding half to even.  The overflow and subnormal thresholds are not
modelled: every float this repository's code ever computes is a sum of a
few small decimal literals, deep inside the normal range, where this is
exactly the IEEE (and hence CPython) semantics.  A Python float literal
such as `0.6` denotes `fl (6/10)`. -/
def fl (x : ℚ) : ℚ :=
  if x.num = 0 then 0 else if 0 < x.num then flPos x else - flPos (-x)

/-- Python float addition: exact rational addition of the two binary64
values followed by binary64 rounding (IEEE correctly rounded `+`). -/
def flAdd (x y : ℚ) : ℚ := fl (x + y)

/-- Float addition on a cost that may be `inf` (`inf + w = inf`). -/
def flAddT (c : WithTop ℚ) (w : ℚ) : WithTop ℚ := c.map (fun q => flAdd q w)

/-- CPython `round(x, 3)` on a float: the exact binary64 value is rounded to
three decimal digits (half to even on the exact value, via `_Py_dg_dtoa`),
and that decimal is converted back to the nearest binary64.  The decimal
rounding is `divRNE` of `1000·num` by `den` (the same as `round3` on the
exact value), kept at the integer level so evaluation stays shallow. -/
def round3f (q : ℚ) : ℚ :=
  if q.num < 0 then - fl (mkRat ((divRNE (1000 * (-q).num.toNat) (-q).den : ℕ) : ℤ) 1000)
  else fl (mkRat ((divRNE (1000 * q.num.toNat) q.den : ℕ) : ℤ) 1000)

/-- `round(x, 3)` on a float cost that may be infinite. -/
def round3fT (x : WithTop ℚ) : WithTop ℚ := x.map round3f

/-- A weighted undirected graph in the shape `networkx` presents it to the
algorithms: `nodes` in insertion order and edges `(u, v, weight)` in
insertion order (`graph.edges(data=True)`).  `add_edge` always inserts both
endpoints into the node set (`wf`), and a node set never holds duplicates
(`nodup`). -/
structure WGraph (α : Type) where
  nodes : List α
  edges : List (α × α × ℚ)
  nodup : nodes.Nodup
  wf : ∀ e ∈ edges, e.1 ∈ nodes ∧ e.2.1 ∈ nodes

variable {α : Type}

/-- `graph.neighbors(u)`: the adjacency of `u`, one hit per incident stored
edge, in edge-insertion order — exactly how `networkx` iterates it when no
unordered pair occurs twice in `edges`. -/
def nbrs [DecidableEq α] (g : WGraph α) (u : α) : List α :=
  g.edges.filterMap (fun e =>
    if e.1 = u then some e.2.1 else if e.2.1 = u then some e.1 else none)

/-- `graph[u][v]['weight']`: the weight of the stored edge `{u, v}` (with a
formal default of `0` for a missing edge, which no caller reaches). -/
def wOf [DecidableEq α] (g : WGraph α) (u v : α) : ℚ :=
  ((g.edges.find? (fun e =>
      decide ((e.1 = u ∧ e.2.1 = v) ∨ (e.1 = v ∧ e.2.1 = u)))).map
    (fun e => e.2.2)).getD 0

/-- The per-node record `{"node": ..., "cost": ..., "parent": ...}` of the
Dijkstra cost table (the `new_item` template of the source). -/
structure AItem (α : Type) where
  node : Option α
  cost : WithTop ℚ
  parent : Option α
deriving DecidableEq, Repr

/-- A Dijkstra snapshot `(sorted(S), sorted(V_S), graph_edges, deepcopy(A))`.
The cost table is total; keys outside `graph.nodes` keep the template value
and are never consulted. -/
abbrev DSnap (α : Type) := List α × List α × List (α × α × ℚ) × (α → AItem α)

/-- How a run of the `dijkstra` generator ends: normally; with the uncaught
`AttributeError` that `el.get("item")` raises when `pop` returned `None`
(or any other escaped exception); or — never reached with the supplied
fuel — by fuel exhaustion. -/
inductive DijkstraEnd
  | ok
  | attrError
  | fuelOut
deriving DecidableEq, Repr

/-- In-place update of one record of the cost table dict. -/
def updA [DecidableEq α] (A : α → AItem α) (n : α) (it : AItem α) :
    α → AItem α :=
  fun m => if m = n then it else A m

/-- The initial cost table: each node gets a deep copy of the template with
its own name filled in, and the start node then gets cost `0` (the guard in
`dijkstra` has already ensured `start ∈ nodes` when this is built). -/
def initA [DecidableEq α] (g : WGraph α) (start : α) : α → AItem α :=
  fun n =>
    if n ∈ g.nodes then
      { node := some n
        cost := if n = start then (0 : ℚ) else ⊤
        parent := none }
    else { node := none, cost := ⊤, parent := none }

/-- The `while len(V_S) > 0` loop of `dijkstra`, with explicit fuel.  The
Python sets `S` and `V_S` are modelled as duplicate-free lists (the only
observations the code makes of them are membership, emptiness, `add`,
`discard` and `sorted(...)`).  Each pass pops one heap entry; entries only enter the heap at the seeding step
and when a node is newly explored, so `2 * len(edges) + 1` passes bound any
run and the wrapper's fuel is sufficient. -/
def dijkstraLoop [LinearOrder α] (g : WGraph α) :
    ℕ → List α → List α → (α → AItem α) →
    List (HEntry (α × α) (WithTop ℚ)) → List (DSnap α) × DijkstraEnd
  | 0, _, _, _, _ => ([], .fuelOut)
  | fuel + 1, S, V_S, A, pq =>
    if V_S.isEmpty then ([], .ok)
    else match minPop pq with
      | none => ([], .attrError)
      | some (none, _) => ([], .attrError)
      | some (some el, pq1) =>
        let u := el.item.1
        let v := el.item.2
        let w := el.value
        if u ∈ S ∧ v ∈ S then dijkstraLoop g fuel S V_S A pq1
        else
          let newNode := if v ∉ S then v else u
          let par := if newNode = v then u else v
          let A1 := updA A newNode ⟨(A newNode).node, round3fT w, some par⟩
          let S1 := if newNode ∈ S then S else S ++ [newNode]
          let VS1 := V_S.erase newNode
          let pq2opt := (nbrs g newNode).foldlM (fun q nb =>
            if nb ∉ S1 then
              minInsert q (newNode, nb)
                (flAddT (A1 newNode).cost (wOf g newNode nb))
            else some q) pq1
          match pq2opt with
          | none => ([], .attrError)
          | some pq2 =>
            let res := dijkstraLoop g fuel S1 VS1 A1 pq2
            ((List.insertionSort (· ≤ ·) S1, List.insertionSort (· ≤ ·) VS1,
                g.edges, A1) :: res.1, res.2)

/-- Fuel for the `dijkstra` loop, comfortably above the `2 * len(edges) + 1`
bound on the number of passes. -/
def dijkstraFuel (g : WGraph α) : ℕ := 2 * g.edges.length + g.nodes.length + 2

/-- The `dijkstra` generator: the list of yielded snapshots and how the run
ends.  An invalid start node is only reported with `print` and the generator
stops without yielding; no error reaches the caller. -/
def dijkstraRun [LinearOrder α] (g : WGraph α) (start : α) :
    List (DSnap α) × DijkstraEnd :=
  if start ∉ g.nodes then ([], .ok)
  else
    let A := initA g start
    let S : List α := [start]
    let VS : List α := g.nodes.filter (· ≠ start)
    let snap0 : DSnap α :=
      (List.insertionSort (· ≤ ·) S, List.insertionSort (· ≤ ·) VS, g.edges, A)
    let seeded := (nbrs g start).foldlM (fun q nb =>
      minInsert q (start, nb)
        (flAddT (A start).cost (wOf g start nb))) []
    match seeded with
    | none => ([snap0], .attrError)
    | some pq =>
      let res := dijkstraLoop g (dijkstraFuel g) S VS A pq
      (snap0 :: res.1, res.2)

end DijkstraDefs


section TraversalDefs

variable {α : Type}

/-- A BFS/DFS snapshot `(set(visited), list(tree_edges))`. -/
abbrev TSnap (α : Type) := Finset α × List (α × α)

/-- A frontier frame `(node, parent-or-None)`. -/
abbrev Frame (α : Type) := α × Option α

/-- `sorted(graph.neighbors(node), reverse=True)` — note that **both** `dfs`
and `bfs` sort the neighbors in descending order in the source. -/
def nbrsDesc [LinearOrder α] (g : WGraph α) (u : α) : List α :=
  List.insertionSort (· ≥ ·) (nbrs g u)

/-- The `while stack` loop of `dfs` with explicit fuel; the stack is the
list head.  Each pass pops one frame, and frames are only pushed when a node
is first visited, so `1 + 2*len(edges)` bounds the passes that pop and one
more pass observes the empty stack; the wrapper fuel suffices.  The Bool
reports that the loop ran to completion (fuel never ran out). -/
def dfsLoop [LinearOrder α] (g : WGraph α) :
    ℕ → Finset α → List (α × α) → List (Frame α) → List (TSnap α) × Bool
  | 0, _, _, _ => ([], false)
  | _ + 1, _, _, [] => ([], true)
  | fuel + 1, visited, tree, (node, par) :: stack =>
    if node ∈ visited then dfsLoop g fuel visited tree stack
    else
      let visited1 := insert node visited
      let tree1 := match par with
        | none => tree
        | some p => tree ++ [(p, node)]
      let stack1 := (nbrsDesc g node).foldl (fun st nb =>
        if nb ∉ visited1 then (nb, some node) :: st else st) stack
      let res := dfsLoop g fuel visited1 tree1 stack1
      ((visited1, tree1) :: res.1, res.2)

/-- The `dfs` generator: yielded snapshots plus a completion marker. -/
def dfsRun [LinearOrder α] (g : WGraph α) (start : α) :
    List (TSnap α) × Bool :=
  dfsLoop g (2 * g.edges.length + g.nodes.length + 2) ∅ [] [(start, none)]

/-- The `while fifo` loop of `bfs` with explicit fuel; the queue front is
the list head and `append` adds at the list end.  Fuel accounting is as for
`dfsLoop`. -/
def bfsLoop [LinearOrder α] (g : WGraph α) :
    ℕ → Finset α → List (α × α) → List (Frame α) → List (TSnap α) × Bool
  | 0, _, _, _ => ([], false)
  | _ + 1, _, _, [] => ([], true)
  | fuel + 1, visited, tree, (node, par) :: fifo =>
    if node ∈ visited then bfsLoop g fuel visited tree fifo
    else
      let visited1 := insert node visited
      let tree1 := match par with
        | none => tree
        | some p => tree ++ [(p, node)]
      let fifo1 := (nbrsDesc g node).foldl (fun q nb =>
        if nb ∉ visited1 then q ++ [(nb, some node)] else q) fifo
      let res := bfsLoop g fuel visited1 tree1 fifo1
      ((visited1, tree1) :: res.1, res.2)

/-- The `bfs` generator: yielded snapshots plus a completion marker. -/
def bfsRun [LinearOrder α] (g : WGraph α) (start : α) :
    List (TSnap α) × Bool :=
  bfsLoop g (2 * g.edges.length + g.nodes.length + 2) ∅ [] [(start, none)]

end TraversalDefs


section ExampleGraphs

/-- The example graph of `graphs.py`'s `__main__` block, with the nodes
`a, b, c, d, e, f` encoded order-preservingly as `0 .. 5`.  The weights are
the binary64 values the Python float literals `0.6, 0.2, ...` denote,
written as explicit dyadic rationals; `exG_weights_float` certifies that
each equals `fl` of the corresponding decimal. -/
def exG : WGraph ℕ where
  nodes := [0, 1, 2, 3, 4, 5]
  edges := [(0, 1, mkRat 5404319552844595 9007199254740992),
            (0, 2, mkRat 3602879701896397 18014398509481984),
            (2, 3, mkRat 3602879701896397 36028797018963968),
            (2, 4, mkRat 3152519739159347 4503599627370496),
            (2, 5, mkRat 3602879701896397 36028797018963968),
            (0, 3, mkRat 5404319552844595 18014398509481984),
            (0, 5, mkRat 3602879701896397 18014398509481984)]
  nodup := by decide
  wf := by decide

/-- The same example graph with the *nominal decimal* weights the source
labels its floats with.  The claim's phrase "true shortest-path distance
... (a:0, b:0.6, c:0.2, d:0.3, e:0.9, f:0.2)" speaks of these decimal
values, so the optimality side of the claim is stated over this graph. -/
def exGDecimal : WGraph ℕ where
  nodes := [0, 1, 2, 3, 4, 5]
  edges := [(0, 1, 6/10), (0, 2, 2/10), (2, 3, 1/10), (2, 4, 7/10),
            (2, 5, 1/10), (0, 3, 3/10), (0, 5, 2/10)]
  nodup := by decide
  wf := by decide

/-- A graph with a node (`2`) unreachable from `0`. -/
def gC5 : WGraph ℕ where
  nodes := [0, 1, 2]
  edges := [(0, 1, 1)]
  nodup := by decide
  wf := by decide

/-- A graph where DFS from `0` reaches sibling `3` through sibling `1`
before the stack returns to `0`'s own frame for `3`. -/
def gD : WGraph ℕ where
  nodes := [0, 1, 2, 3]
  edges := [(0, 1, 1), (0, 2, 1), (0, 3, 1), (1, 3, 1)]
  nodup := by decide
  wf := by decide

/-- A star graph: `0` adjacent to `1` and `2`. -/
def gB : WGraph ℕ where
  nodes := [0, 1, 2]
  edges := [(0, 1, 1), (0, 2, 1)]
  nodup := by decide
  wf := by decide

end ExampleGraphs

section StatementHelpers

variable {α : Type}

/-- The children attached to parent `p` in a tree-edge list, in attachment
order. -/
def treeChildren [DecidableEq α] (p : α) (t : List (α × α)) : List α :=
  (t.filter (fun e => e.1 = p)).map (fun e => e.2)

/-- The nodes waiting in a frontier with recorded parent `p`, in frontier
order. -/
def pend [DecidableEq α] (p : α) (st : List (Frame α)) : List α :=
  (st.filter (fun f => f.2 = some p)).map Prod.fst

/-- The order in which a BFS/DFS run first visits nodes: the start node
followed by the child of each recorded tree edge (every later visit records
exactly one tree edge, in visit order). -/
def tVisit (s : α) (snaps : List (TSnap α)) : List α :=
  s :: ((((snaps.getLast?).map (fun sn => sn.2)).getD []).map (fun e => e.2))

/-- Monotone-progress relation between two Dijkstra snapshots: the explored
list only grows, the unexplored list only shrinks, and the cost-table
records of already-explored nodes are unchanged. -/
def DStep (s1 s2 : DSnap α) : Prop :=
  s1.1 ⊆ s2.1 ∧ s2.2.1 ⊆ s1.2.1 ∧ ∀ n ∈ s1.1, s2.2.2.2 n = s1.2.2.2 n

/-- Well-formedness of one Dijkstra snapshot with respect to the node set:
both halves are strictly sorted, they are disjoint, and together they are
exactly the graph's nodes. -/
def PartitionOk [LinearOrder α] (g : WGraph α) (snap : DSnap α) : Prop :=
  snap.1.Sorted (· < ·) ∧ snap.2.1.Sorted (· < ·) ∧
    (∀ x ∈ snap.1, x ∉ snap.2.1) ∧ (snap.1 ++ snap.2.1).Perm g.nodes

/-- Undirected adjacency of the stored edge list. -/
def adjQ (g : WGraph α) (u v : α) : Prop :=
  ∃ w : ℚ, (u, v, w) ∈ g.edges ∨ (v, u, w) ∈ g.edges

/-- `IsWalkFrom g a b l`: `l` is a walk from `a` to `b` along stored edges. -/
def IsWalkFrom (g : WGraph α) : α → α → List α → Prop
  | _, _, [] => False
  | a, b, [x] => a = x ∧ b = x
  | a, b, x :: y :: l => a = x ∧ adjQ g x y ∧ IsWalkFrom g y b (y :: l)

/-- The cost of a walk: the sum of the stored weights of its steps. -/
def walkCost [DecidableEq α] (g : WGraph α) : List α → ℚ
  | [] => 0
  | [_] => 0
  | x :: y :: l => wOf g x y + walkCost g (y :: l)

/-- `q` is the true shortest-path distance from `s` to `n` in `g`: some walk
attains it and no walk beats it. -/
def IsShortestDistFrom [DecidableEq α] (g : WGraph α) (s n : α) (q : ℚ) : Prop :=
  (∃ l, IsWalkFrom g s n l ∧ walkCost g l = q) ∧
    ∀ l, IsWalkFrom g s n l → q ≤ walkCost g l

/-- Internal invariant of the `dijkstra` loop state: both set-lists are
duplicate-free subsets of the node list, disjoint and jointly covering it,
and every queued edge has both endpoints among the nodes. -/
def LoopInv [DecidableEq α] (g : WGraph α) (S V_S : List α)
    (pq : List (HEntry (α × α) (WithTop ℚ))) : Prop :=
  S.Nodup ∧ V_S.Nodup ∧
    (∀ x ∈ S, x ∈ g.nodes) ∧ (∀ x ∈ V_S, x ∈ g.nodes) ∧
    (∀ x ∈ S, x ∉ V_S) ∧ (∀ x ∈ g.nodes, x ∈ S ∨ x ∈ V_S) ∧
    (∀ e ∈ pq, e.item.1 ∈ g.nodes ∧ e.item.2 ∈ g.nodes)

/-- A snapshot lies in the future of a loop state: it explores at least `S`,
leaves unexplored at most `V_S`, and agrees with `A` on all of `S`. -/
def StateLe [DecidableEq α] (S V_S : List α) (A : α → AItem α)
    (snap : DSnap α) : Prop :=
  (∀ x ∈ S, x ∈ snap.1) ∧ (∀ x ∈ snap.2.1, x ∈ V_S) ∧
    ∀ n ∈ S, snap.2.2.2 n = A n

/-- The claimed shortest-distance table of the example graph (`a..f` as
`0..5`). -/
def dEx : ℕ → ℚ
  | 0 => 0
  | 1 => 6 / 10
  | 2 => 2 / 10
  | 3 => 3 / 10
  | 4 => 9 / 10
  | 5 => 2 / 10
  | _ => 0

/-- A concrete operation sequence exercising `insert`, `change_key` (with a
nonnegative index) and `pop`, used to instantiate the heap-invariant claim. -/
def c2ops : List (HeapOp ℕ ℤ) :=
  [.insert 10 5, .insert 11 3, .insert 12 7, .insert 13 1,
   .change_key 0 9, .pop, .insert 14 2, .change_key 2 0, .pop]

end StatementHelpers


section EasyClaims

/-- Claim C4 counterexample: for the concrete graph `gB` and the invalid
start node `5`, `dijkstra` does not surface any error to the caller — the
generator simply ends normally with no snapshots (the message is only
printed), contradicting the claim that an `InvalidStartNode` failure is
delivered to the caller. -/
theorem C4_counterexample :
    (5 ∉ gB.nodes) ∧ dijkstraRun gB 5 = ([], DijkstraEnd.ok) := by
  exact ⟨by decide, rfl⟩

/-- Claim C4, amended: for every graph and every start value that is not a
node of the graph, `dijkstra` yields no snapshots and ends normally; the
failure is only printed, never surfaced to the caller. -/
theorem C4_invalid_start_yields_nothing {α : Type} [LinearOrder α]
    (g : WGraph α) (s : α) (h : s ∉ g.nodes) :
    dijkstraRun g s = ([], DijkstraEnd.ok) := by
  unfold dijkstraRun
  rw [if_pos h]

/-- Witness for `C4_invalid_start_yields_nothing` at `gB`, start `5`. -/
theorem C4_invalid_start_yields_nothing_witness :
    dijkstraRun gB 5 = ([], DijkstraEnd.ok) :=
  C4_invalid_start_yields_nothing gB 5 (by decide)

/-- Claim C5 (code bug evidence): on `gC5` — node `2` unreachable from the
start `0` — the run ends with the uncaught `AttributeError` raised by
`el.get("item")` once the heap is exhausted, after yielding exactly two
snapshots; in both of them node `2` is unexplored with infinite cost and no
parent. -/
theorem C5_crash_on_unreachable :
    (dijkstraRun gC5 0).2 = DijkstraEnd.attrError ∧
      ((dijkstraRun gC5 0).1.map (fun s =>
        (s.1, s.2.1, (s.2.2.2 2).cost, (s.2.2.2 2).parent))) =
        [([0], [1, 2], ⊤, none), ([0, 1], [2], ⊤, none)] := by
  exact ⟨rfl, by decide⟩

/-- Claim C8 counterexample: the first snapshot of the run on the example
graph `gB` from `0` has explored list `[0]`, not the empty list the claim
requires. -/
theorem C8_counterexample :
    ((dijkstraRun gB 0).1.head?.map (fun s => s.1)) = some [0] ∧
      some [0] ≠ some ([] : List ℕ) := by
  exact ⟨by with_unfolding_all decide, by decide⟩

/-- Claim C9 counterexample: on a one-element `MinHeap`, the index `-2`
addresses no element (Python indices `0` and `-1` are the only valid ones),
yet `change_key` raises an uncaught `IndexError` instead of being a silent
no-op. -/
theorem C9_counterexample :
    pyIdx 1 (-2) = none ∧
      minChangeKey [HEntry.mk 0 (1 : ℤ)] (-2) 5 = none ∧
      (none : Option (List (HEntry ℕ ℤ))) ≠ some [HEntry.mk 0 1] := by
  exact ⟨rfl, rfl, by decide⟩

/-- Claim C9, amended: `change_key` is a silent no-op on an empty heap and
for every index `≥ len(elements)` — for both heap variants.  (For an index
below `-len(elements)` it instead raises `IndexError`.) -/
theorem C9_out_of_range_noop {α β : Type} [LinearOrder β]
    (l : List (HEntry α β)) (i : ℤ) (v : β)
    (h : l = [] ∨ (l.length : ℤ) ≤ i) :
    minChangeKey l i v = some l ∧ maxChangeKey l i v = some l := by
  have hg : (l.isEmpty ∨ (l.length : ℤ) ≤ i) := by
    rcases h with h | h
    · exact Or.inl (by simp [h])
    · exact Or.inr h
  unfold minChangeKey maxChangeKey
  rw [if_pos hg, if_pos hg]
  exact ⟨rfl, rfl⟩

/-- Witness for `C9_out_of_range_noop`: index `3` on a one-element heap. -/
theorem C9_out_of_range_noop_witness :
    minChangeKey [HEntry.mk 0 (5 : ℤ)] 3 7 = some [HEntry.mk 0 5] ∧
      maxChangeKey [HEntry.mk 0 (5 : ℤ)] 3 7 = some [HEntry.mk 0 5] :=
  C9_out_of_range_noop [HEntry.mk 0 (5 : ℤ)] 3 7 (Or.inr (by decide))

/-- Claim C2 counterexample: the operation sequence
`insert(0, 1); insert(1, 2); change_key(-1, 0)` on an initially empty
`MinHeap` leaves the backing list `[(0, 1), (1, 0)]`, whose position `1`
holds value `0`, strictly smaller than its parent's value `1` — the heap
ordering is violated (the negative in-range index updates the last cell but
`_heapify_up(-1)` compares that cell with itself and returns). -/
theorem C2_counterexample :
    minRunOps [HeapOp.insert 0 (1 : ℤ), HeapOp.insert 1 2,
        HeapOp.change_key (-1) 0] =
      some [HEntry.mk 0 1, HEntry.mk 1 0] ∧
      ¬ IsMinHeap [HEntry.mk 0 (1 : ℤ), HEntry.mk 1 0] := by
  refine ⟨rfl, fun h => ?_⟩
  have h1 := h 1 one_pos (HEntry.mk 1 0) rfl (HEntry.mk 0 1) rfl
  exact absurd h1 (by decide)

/-- Claim C3 counterexample.  BFS side: in `gB` from `0`, nodes `1` and `2`
are unvisited neighbors of `0` at its expansion, yet the visit order is
`0, 2, 1` — descending, because `bfs` enqueues neighbors sorted with
`reverse=True`.  DFS side: in `gD` from `0`, nodes `1`, `2`, `3` are
unvisited neighbors of `0` at its expansion, yet the visit order is
`0, 1, 3, 2`, since `3` is reached through `1` before `0`'s own entry for
`3` is popped. -/
theorem C3_counterexample :
    (nbrs gB 0 = [1, 2] ∧
      ((bfsRun gB 0).1.head?.map (fun sn => sn.1)) = some {0} ∧
      tVisit 0 (bfsRun gB 0).1 = [0, 2, 1] ∧
      ¬ ([0, 2, 1].filter (· ∈ [1, 2])).Sorted (· ≤ ·)) ∧
    (nbrs gD 0 = [1, 2, 3] ∧
      ((dfsRun gD 0).1.head?.map (fun sn => sn.1)) = some {0} ∧
      tVisit 0 (dfsRun gD 0).1 = [0, 1, 3, 2] ∧
      ¬ ([0, 1, 3, 2].filter (· ∈ [1, 2, 3])).Sorted (· ≤ ·)) := by
  exact ⟨⟨by decide, by decide, by decide, by decide⟩,
    ⟨by decide, by decide, by decide, by decide⟩⟩

end EasyClaims


section WalkLemmas

/-- Any feasible potential (a table satisfying the triangle inequality along
every stored edge) bounds every walk cost from below. -/
theorem walk_cost_lb {α : Type} [DecidableEq α] (g : WGraph α) (d : α → ℚ)
    (hpot : ∀ u v, adjQ g u v → d v ≤ d u + wOf g u v) :
    ∀ (l : List α) (a b : α), IsWalkFrom g a b l → d b ≤ d a + walkCost g l := by
  intro l
  induction l with
  | nil => intro a b h; exact absurd h (by simp [IsWalkFrom])
  | cons x t ih =>
    intro a b h
    cases t with
    | nil =>
      obtain ⟨hax, hbx⟩ := h
      subst hax; subst hbx
      simp [walkCost]
    | cons y t2 =>
      obtain ⟨hax, hadj, hw⟩ := h
      subst hax
      have h1 := hpot a y hadj
      have h2 := ih y b hw
      have h3 : walkCost g (a :: y :: t2) = wOf g a y + walkCost g (y :: t2) := rfl
      rw [h3]
      linarith

/-- The stored weights of `exG` are exactly the binary64 roundings of the
decimal weights of `exGDecimal` — the values the source's float literals
`0.6, 0.2, 0.1, 0.7, 0.1, 0.3, 0.2` denote (compared componentwise by
reduced numerator and denominator, which determine each rational). -/
theorem exG_weights_float :
    exG.edges.map (fun e => ((e.2.2).num, (e.2.2).den)) =
      (exGDecimal.edges.map (fun e => fl e.2.2)).map (fun q => (q.num, q.den)) := by
  with_unfolding_all decide

/-- The table `dEx` is a feasible potential for the decimal-weight example
graph. -/
theorem exGDecimal_potential :
    ∀ u v, adjQ exGDecimal u v → dEx v ≤ dEx u + wOf exGDecimal u v := by
  intro u v hadj
  obtain ⟨w, h | h⟩ := hadj <;>
    simp only [exGDecimal, List.mem_cons, List.not_mem_nil, or_false,
      Prod.mk.injEq] at h <;>
    rcases h with h | h | h | h | h | h | h <;>
    obtain ⟨rfl, rfl, rfl⟩ := h <;>
    with_unfolding_all decide

/-- `dEx` records the true shortest-path distances of the decimal-weight
example graph. -/
theorem exGDecimal_shortest :
    ∀ n ∈ exGDecimal.nodes, IsShortestDistFrom exGDecimal 0 n (dEx n) := by
  have lb : ∀ n, ∀ l, IsWalkFrom exGDecimal 0 n l →
      dEx n ≤ walkCost exGDecimal l := by
    intro n l hl
    have h := walk_cost_lb exGDecimal dEx exGDecimal_potential l 0 n hl
    have h0 : dEx 0 = 0 := rfl
    rw [h0] at h
    linarith
  intro n hn
  fin_cases hn
  · exact ⟨⟨[0], ⟨rfl, rfl⟩, by with_unfolding_all decide⟩, lb 0⟩
  · refine ⟨⟨[0, 1], ⟨rfl, ⟨6 / 10, Or.inl (by with_unfolding_all decide)⟩, rfl, rfl⟩,
      by with_unfolding_all decide⟩, lb 1⟩
  · refine ⟨⟨[0, 2], ⟨rfl, ⟨2 / 10, Or.inl (by with_unfolding_all decide)⟩, rfl, rfl⟩,
      by with_unfolding_all decide⟩, lb 2⟩
  · refine ⟨⟨[0, 3], ⟨rfl, ⟨3 / 10, Or.inl (by with_unfolding_all decide)⟩, rfl, rfl⟩,
      by with_unfolding_all decide⟩, lb 3⟩
  · refine ⟨⟨[0, 2, 4], ⟨rfl, ⟨2 / 10, Or.inl (by with_unfolding_all decide)⟩, rfl,
      ⟨7 / 10, Or.inl (by with_unfolding_all decide)⟩, rfl, rfl⟩,
      by with_unfolding_all decide⟩, lb 4⟩
  · refine ⟨⟨[0, 5], ⟨rfl, ⟨2 / 10, Or.inl (by with_unfolding_all decide)⟩, rfl, rfl⟩,
      by with_unfolding_all decide⟩, lb 5⟩

set_option maxRecDepth 2300 in
/-- Claim C1: on the example graph (nodes `a..f` as `0..5`, IEEE binary64
weights and arithmetic) from start `a`, the run ends normally with six
snapshots; the final snapshot's cost table assigns every node the binary64
value of its true shortest-path distance (`a:0, b:0.6, c:0.2, d:0.3, e:0.9,
f:0.2` — the claim's decimals rendered as Python floats; each cost is
compared by its reduced numerator and denominator, which determine the
rational exactly), and the recorded
parents are `b←a, c←a, d←a, e←c, f←a`: in particular `f`'s parent is `a`
via the direct edge of weight `0.2`.  (Float rounding makes
`0.2 + 0.1 > 0.3`, so the program explores `d` through the direct edge
`a-d` with parent `a`.)  The distances are the true shortest-path distances
of the decimal weights, and every recorded parent is a predecessor on some
shortest path: its distance plus the connecting edge weight equals the
node's distance. -/
theorem C1_dijkstra_example :
    (dijkstraRun exG 0).2 = DijkstraEnd.ok ∧
    (dijkstraRun exG 0).1.length = 6 ∧
    ((dijkstraRun exG 0).1.getLast?.map (fun sn =>
        [0, 1, 2, 3, 4, 5].map (fun n =>
          ((sn.2.2.2 n).cost.map (fun q => (q.num, q.den)),
            (sn.2.2.2 n).parent)))) =
      some [(some ((fl (dEx 0)).num, (fl (dEx 0)).den), none),
            (some ((fl (dEx 1)).num, (fl (dEx 1)).den), some 0),
            (some ((fl (dEx 2)).num, (fl (dEx 2)).den), some 0),
            (some ((fl (dEx 3)).num, (fl (dEx 3)).den), some 0),
            (some ((fl (dEx 4)).num, (fl (dEx 4)).den), some 2),
            (some ((fl (dEx 5)).num, (fl (dEx 5)).den), some 0)] ∧
    (∀ n ∈ exGDecimal.nodes, IsShortestDistFrom exGDecimal 0 n (dEx n)) ∧
    (dEx 0 + wOf exGDecimal 0 1 = dEx 1 ∧ dEx 0 + wOf exGDecimal 0 2 = dEx 2 ∧
      dEx 0 + wOf exGDecimal 0 3 = dEx 3 ∧ dEx 2 + wOf exGDecimal 2 4 = dEx 4 ∧
      dEx 0 + wOf exGDecimal 0 5 = dEx 5) := by
  refine ⟨by with_unfolding_all rfl, by with_unfolding_all rfl,
    by with_unfolding_all rfl, exGDecimal_shortest, by with_unfolding_all decide⟩

/-- Witness for `C1_dijkstra_example`: instantiating its optimality part at
node `f` (encoded `5`) and the concrete walk `a-c-f` shows that walk costs
at least the recorded distance `0.2`. -/
theorem C1_dijkstra_example_witness :
    dEx 5 ≤ walkCost exGDecimal [0, 2, 5] :=
  (C1_dijkstra_example.2.2.2.1 5 (by decide)).2 [0, 2, 5]
    ⟨rfl, ⟨2 / 10, Or.inl (by with_unfolding_all decide)⟩, rfl,
      ⟨1 / 10, Or.inl (by with_unfolding_all decide)⟩, rfl, rfl⟩

end WalkLemmas


section FirstSnapshot

/-- Claim C8, amended: the first snapshot reflects the initial state in which
exactly the start node is explored — explored list `[start]`, all other
nodes unexplored, the full edge list, start cost `0` with no parent, every
other node infinite cost with no parent. -/
theorem C8_first_snapshot {α : Type} [LinearOrder α] (g : WGraph α) (s : α)
    (h : s ∈ g.nodes) :
    ∃ snap, (dijkstraRun g s).1.head? = some snap ∧
      snap.1 = [s] ∧
      (∀ n, n ∈ snap.2.1 ↔ n ∈ g.nodes ∧ n ≠ s) ∧
      snap.2.2.1 = g.edges ∧
      (snap.2.2.2 s).cost = ((0 : ℚ) : WithTop ℚ) ∧
      (snap.2.2.2 s).parent = none ∧
      (∀ n ∈ g.nodes, n ≠ s →
        (snap.2.2.2 n).cost = ⊤ ∧ (snap.2.2.2 n).parent = none) := by
  have hns : ¬ s ∉ g.nodes := not_not_intro h
  refine ⟨(List.insertionSort (· ≤ ·) [s],
      List.insertionSort (· ≤ ·) (g.nodes.filter (· ≠ s)), g.edges, initA g s),
    ?_, ?_, ?_, rfl, ?_, ?_, ?_⟩
  · unfold dijkstraRun
    rw [if_neg hns]
    cases hsd : (nbrs g s).foldlM (fun q nb =>
        minInsert q (s, nb)
          (flAddT ((initA g s) s).cost (wOf g s nb))) [] with
    | none => simp [hsd]
    | some pq => simp [hsd]
  · rfl
  · intro n
    constructor
    · intro hn
      have hmem : n ∈ g.nodes.filter (· ≠ s) :=
        ((List.perm_insertionSort (· ≤ ·) (g.nodes.filter (· ≠ s))).mem_iff).1 hn
      have := List.mem_filter.1 hmem
      exact ⟨this.1, by simpa using this.2⟩
    · intro ⟨hn, hne⟩
      refine ((List.perm_insertionSort (· ≤ ·) (g.nodes.filter (· ≠ s))).mem_iff).2 ?_
      exact List.mem_filter.2 ⟨hn, by simpa using hne⟩
  · simp [initA, h]
  · simp [initA, h]
  · intro n hn hne
    simp [initA, hn, hne]

/-- Witness for `C8_first_snapshot` at the example graph `exG` from `0`. -/
theorem C8_first_snapshot_witness :
    ∃ snap, (dijkstraRun exG 0).1.head? = some snap ∧
      snap.1 = [0] ∧
      (∀ n, n ∈ snap.2.1 ↔ n ∈ exG.nodes ∧ n ≠ 0) ∧
      snap.2.2.1 = exG.edges ∧
      (snap.2.2.2 0).cost = ((0 : ℚ) : WithTop ℚ) ∧
      (snap.2.2.2 0).parent = none ∧
      (∀ n ∈ exG.nodes, n ≠ 0 →
        (snap.2.2.2 n).cost = ⊤ ∧ (snap.2.2.2 n).parent = none) :=
  C8_first_snapshot exG 0 (by decide)

end FirstSnapshot


section HeapMemLemmas

/-- A successful Python read returns an element of the list. -/
theorem pyGet_mem {γ : Type} {l : List γ} {i : ℤ} {a : γ}
    (h : pyGet l i = some a) : a ∈ l := by
  unfold pyGet at h
  rw [Option.bind_eq_some] at h
  obtain ⟨k, _, hk⟩ := h
  exact List.getElem?_mem hk

/-- A successful Python write only adds the written value. -/
theorem pySet_mem {γ : Type} {l l2 : List γ} {i : ℤ} {b : γ}
    (h : pySet l i b = some l2) : ∀ x ∈ l2, x ∈ l ∨ x = b := by
  unfold pySet at h
  rw [Option.map_eq_some'] at h
  obtain ⟨k, _, hk⟩ := h
  intro x hx
  rw [← hk] at hx
  exact List.mem_or_eq_of_mem_set hx

/-- Swapping two cells introduces no new elements. -/
theorem pySwap_mem {γ : Type} {l l2 : List γ} {i j : ℤ}
    (h : pySwap l i j = some l2) : ∀ x ∈ l2, x ∈ l := by
  unfold pySwap at h
  simp only [Option.bind_eq_bind, Option.bind_eq_some] at h
  obtain ⟨a, ha, b, hb, l1, hl1, hl2⟩ := h
  intro x hx
  rcases pySet_mem hl2 x hx with h1 | rfl
  · rcases pySet_mem hl1 x h1 with h2 | rfl
    · exact h2
    · exact pyGet_mem hb
  · exact pyGet_mem ha

/-- `_heapify_up` (MinHeap) introduces no new elements. -/
theorem minHeapifyUpGo_mem {α β : Type} [LinearOrder β] :
    ∀ (fuel : ℕ) (l : List (HEntry α β)) (i : ℤ) (l2 : List (HEntry α β)),
      minHeapifyUpGo fuel l i = some l2 → ∀ x ∈ l2, x ∈ l := by
  intro fuel
  induction fuel with
  | zero =>
    intro l i l2 h
    rw [minHeapifyUpGo] at h
    exact Option.noConfusion h
  | succ n ih =>
    intro l i l2 h
    rcases hgp : getParentIndex l i with _ | p <;>
      simp only [minHeapifyUpGo, hgp, Option.bind_eq_bind, Option.bind_eq_some,
        Option.some.injEq] at h
    · exact fun x hx => by rw [h]; exact hx
    · obtain ⟨ep, hep, ei, hei, h⟩ := h
      split_ifs at h
      · exact fun x hx => by rw [Option.some.inj h]; exact hx
      · simp only [Option.bind_eq_bind, Option.bind_eq_some] at h
        obtain ⟨l1, hsw, hrec⟩ := h
        exact fun x hx => pySwap_mem hsw x (ih l1 p l2 hrec x hx)
      · exact fun x hx => by rw [Option.some.inj h]; exact hx

/-- `_heapify_down` (MinHeap) introduces no new elements. -/
theorem minHeapifyDownGo_mem {α β : Type} [LinearOrder β] :
    ∀ (fuel : ℕ) (l : List (HEntry α β)) (i : ℤ) (l2 : List (HEntry α β)),
      minHeapifyDownGo fuel l i = some l2 → ∀ x ∈ l2, x ∈ l := by
  intro fuel
  induction fuel with
  | zero =>
    intro l i l2 h
    rw [minHeapifyDownGo] at h
    exact Option.noConfusion h
  | succ n ih =>
    intro l i l2 h
    rw [minHeapifyDownGo] at h
    split_ifs at h
    · exact fun x hx => by rw [Option.some.inj h]; exact hx
    · simp only [Option.bind_eq_bind, Option.bind_eq_some] at h
      obtain ⟨s1, hs1, s2, hs2, h⟩ := h
      split_ifs at h
      · simp only [Option.bind_eq_bind, Option.bind_eq_some] at h
        obtain ⟨l1, hsw, hrec⟩ := h
        exact fun x hx => pySwap_mem hsw x (ih l1 s2 l2 hrec x hx)
      · exact fun x hx => by rw [Option.some.inj h]; exact hx

/-- `pop` (MinHeap) returns a stored entry and keeps only stored entries. -/
theorem minPop_mem {α β : Type} [LinearOrder β] {l l2 : List (HEntry α β)}
    {e : HEntry α β} (h : minPop l = some (some e, l2)) :
    e ∈ l ∧ ∀ x ∈ l2, x ∈ l := by
  cases l with
  | nil =>
    simp only [minPop, Option.some.injEq, Prod.mk.injEq] at h
    exact absurd h.1 (by simp)
  | cons a t =>
    cases t with
    | nil =>
      simp only [minPop, Option.some.injEq, Prod.mk.injEq] at h
      obtain ⟨rfl, rfl⟩ := h
      exact ⟨List.mem_singleton_self a, by simp⟩
    | cons b t2 =>
      simp only [minPop, Option.map_eq_some', Option.some.injEq, Prod.mk.injEq] at h
      obtain ⟨l1, hdown, rfl, rfl⟩ := h
      constructor
      · exact List.mem_cons_self _ _
      · intro x hx
        have hx1 := minHeapifyDownGo_mem _ _ _ _ hdown x hx
        rcases List.mem_or_eq_of_mem_set hx1 with hmem | rfl
        · exact (List.dropLast_sublist (a :: b :: t2)).subset hmem
        · exact List.getLast_mem (List.cons_ne_nil a (b :: t2))

/-- `insert` (MinHeap) only adds the inserted entry. -/
theorem minInsert_mem {α β : Type} [LinearOrder β] {q q2 : List (HEntry α β)}
    {it : α} {v : β} (h : minInsert q it v = some q2) :
    ∀ x ∈ q2, x ∈ q ∨ x = HEntry.mk it v := by
  unfold minInsert minHeapifyUp at h
  intro x hx
  have := minHeapifyUpGo_mem _ _ _ _ h x hx
  simpa using this

end HeapMemLemmas


section LoopInvLemmas

/-- Neighbors are nodes of the graph. -/
theorem nbrs_mem {α : Type} [DecidableEq α] (g : WGraph α) (u : α) :
    ∀ nb ∈ nbrs g u, nb ∈ g.nodes := by
  intro nb h
  unfold nbrs at h
  rw [List.mem_filterMap] at h
  obtain ⟨e, he, hfe⟩ := h
  have hwf := g.wf e he
  split_ifs at hfe
  · rw [← Option.some.inj hfe]; exact hwf.2
  · rw [← Option.some.inj hfe]; exact hwf.1

/-- Pushing entries with a monadic fold only adds entries satisfying the
per-step guarantee. -/
theorem foldlM_step_mem {α β γ : Type} [LinearOrder β] (P : HEntry α β → Prop) :
    ∀ (nbl : List γ) (step : List (HEntry α β) → γ → Option (List (HEntry α β))),
      (∀ q nb, nb ∈ nbl → ∀ q2, step q nb = some q2 → ∀ x ∈ q2, x ∈ q ∨ P x) →
      ∀ (q q2 : List (HEntry α β)), nbl.foldlM step q = some q2 →
        ∀ x ∈ q2, x ∈ q ∨ P x := by
  intro nbl
  induction nbl with
  | nil =>
    intro step hstep q q2 h x hx
    rw [List.foldlM_nil] at h
    left
    rw [Option.some.inj h]
    exact hx
  | cons nb t ih =>
    intro step hstep q q2 h x hx
    rw [List.foldlM_cons] at h
    simp only [Option.bind_eq_bind, Option.bind_eq_some] at h
    obtain ⟨q1, h1, h2⟩ := h
    rcases ih step (fun q nb2 hnb2 => hstep q nb2 (List.mem_cons_of_mem nb hnb2))
        q1 q2 h2 x hx with hq1 | hP
    · exact hstep q nb (List.mem_cons_self nb t) q1 h1 x hq1
    · exact Or.inr hP

end LoopInvLemmas


section LoopInvariantMain

/-- A duplicate-free list sorts into a strictly sorted list. -/
theorem sort_sorted_lt {α : Type} [LinearOrder α] (l : List α) (h : l.Nodup) :
    (List.insertionSort (· ≤ ·) l).Sorted (· < ·) :=
  (List.sorted_insertionSort _ l).lt_of_le
    ((List.perm_insertionSort _ l).nodup_iff.2 h)

/-- Two disjoint duplicate-free lists that jointly cover the node list are a
permutation of it when concatenated. -/
theorem perm_nodes_of_partition {α : Type} [DecidableEq α] (g : WGraph α)
    {S1 VS1 : List α} (h1 : S1.Nodup) (h2 : VS1.Nodup)
    (hd : ∀ x ∈ S1, x ∉ VS1) (hs : ∀ x ∈ S1, x ∈ g.nodes)
    (hv : ∀ x ∈ VS1, x ∈ g.nodes) (hc : ∀ x ∈ g.nodes, x ∈ S1 ∨ x ∈ VS1) :
    (S1 ++ VS1).Perm g.nodes := by
  apply List.perm_of_nodup_nodup_toFinset_eq
  · rw [List.nodup_append]
    exact ⟨h1, h2, fun a ha hb => hd a ha hb⟩
  · exact g.nodup
  · ext x
    simp only [List.mem_toFinset, List.mem_append]
    constructor
    · rintro (h | h)
      exacts [hs x h, hv x h]
    · exact hc x

/-- Every snapshot emitted by the `dijkstra` loop satisfies the partition
well-formedness, lies in the future of the entering state, and the emitted
sequence is pairwise monotone. -/
theorem dijkstraLoop_invariant {α : Type} [LinearOrder α] (g : WGraph α) :
    ∀ (fuel : ℕ) (S V_S : List α) (A : α → AItem α)
      (pq : List (HEntry (α × α) (WithTop ℚ))),
      LoopInv g S V_S pq →
      (∀ snap ∈ (dijkstraLoop g fuel S V_S A pq).1,
          PartitionOk g snap ∧ StateLe S V_S A snap) ∧
        (dijkstraLoop g fuel S V_S A pq).1.Pairwise DStep := by
  intro fuel
  induction fuel with
  | zero =>
    intro S V_S A pq _
    rw [dijkstraLoop]
    simp
  | succ n ih =>
    intro S V_S A pq hinv
    obtain ⟨hSnd, hVnd, hSn, hVn, hdisj, hcover, hpq⟩ := hinv
    rw [dijkstraLoop]
    by_cases hVS : V_S.isEmpty
    · rw [if_pos hVS]; simp
    · rw [if_neg hVS]
      rcases hpop : minPop pq with _ | ⟨el2, pq1⟩
      · simp
      rcases el2 with _ | el
      · simp
      obtain ⟨helpq, hpq1⟩ := minPop_mem hpop
      by_cases hstale : el.item.1 ∈ S ∧ el.item.2 ∈ S
      · simp only [hstale, and_self, if_true]
        exact ih S V_S A pq1 ⟨hSnd, hVnd, hSn, hVn, hdisj, hcover,
          fun e he => hpq e (hpq1 e he)⟩
      · simp only [hstale, if_false]
        set nn := if el.item.2 ∉ S then el.item.2 else el.item.1 with hnn
        have hnnS : nn ∉ S := by
          rw [hnn]
          by_cases hv2 : el.item.2 ∈ S
          · rw [if_neg (not_not_intro hv2)]
            intro hu
            exact hstale ⟨hu, hv2⟩
          · rw [if_pos hv2]
            exact hv2
        have hnnN : nn ∈ g.nodes := by
          have := hpq el helpq
          rw [hnn]
          by_cases hv2 : el.item.2 ∈ S
          · rw [if_neg (not_not_intro hv2)]; exact this.1
          · rw [if_pos hv2]; exact this.2
        have hnnV : nn ∈ V_S := (hcover nn hnnN).resolve_left hnnS
        set A1 := updA A nn ⟨(A nn).node, round3fT el.value,
          some (if nn = el.item.2 then el.item.1 else el.item.2)⟩ with hA1
        rw [if_neg hnnS]
        have hS1nd : (S ++ [nn]).Nodup := by
          rw [List.nodup_append]
          exact ⟨hSnd, List.nodup_singleton nn,
            fun a ha hb => hnnS (by rwa [List.mem_singleton.1 hb] at ha)⟩
        have hVS1nd : (V_S.erase nn).Nodup := hVnd.erase nn
        have hS1n : ∀ x ∈ S ++ [nn], x ∈ g.nodes := by
          intro x hx
          rcases List.mem_append.1 hx with hx | hx
          · exact hSn x hx
          · rw [List.mem_singleton.1 hx]; exact hnnN
        have hVS1n : ∀ x ∈ V_S.erase nn, x ∈ g.nodes :=
          fun x hx => hVn x (List.mem_of_mem_erase hx)
        have hdisj1 : ∀ x ∈ S ++ [nn], x ∉ V_S.erase nn := by
          intro x hx hxe
          rcases List.mem_append.1 hx with hx | hx
          · exact hdisj x hx (List.mem_of_mem_erase hxe)
          · rw [List.mem_singleton.1 hx] at hxe
            exact ((hVnd.mem_erase_iff).1 hxe).1 rfl
        have hcover1 : ∀ x ∈ g.nodes, x ∈ S ++ [nn] ∨ x ∈ V_S.erase nn := by
          intro x hx
          rcases hcover x hx with hx2 | hx2
          · exact Or.inl (List.mem_append.2 (Or.inl hx2))
          · by_cases hxn : x = nn
            · exact Or.inl (List.mem_append.2 (Or.inr (List.mem_singleton.2 hxn)))
            · exact Or.inr ((List.mem_erase_of_ne hxn).2 hx2)
        split
        · simp
        · rename_i pq2 hfold
          have hstep : ∀ q nb, nb ∈ nbrs g nn → ∀ q2,
              (if nb ∉ S ++ [nn] then
                minInsert q (nn, nb) (flAddT (A1 nn).cost (wOf g nn nb))
              else some q) = some q2 →
              ∀ x ∈ q2, x ∈ q ∨ (x.item.1 ∈ g.nodes ∧ x.item.2 ∈ g.nodes) := by
            intro q nb hnb q2 hq2 x hx
            by_cases hnbS : nb ∉ S ++ [nn]
            · rw [if_pos hnbS] at hq2
              rcases minInsert_mem hq2 x hx with h2 | h2
              · exact Or.inl h2
              · refine Or.inr ?_
                rw [h2]
                exact ⟨hnnN, nbrs_mem g nn nb hnb⟩
            · rw [if_neg hnbS] at hq2
              rw [← Option.some.inj hq2] at hx
              exact Or.inl hx
          have hpq2 : ∀ e ∈ pq2, e.item.1 ∈ g.nodes ∧ e.item.2 ∈ g.nodes := by
            intro e he
            rcases foldlM_step_mem (fun x => x.item.1 ∈ g.nodes ∧ x.item.2 ∈ g.nodes)
                (nbrs g nn) _ hstep pq1 pq2 hfold e he with h1 | h1
            · exact hpq e (hpq1 e h1)
            · exact h1
          have hIH := ih (S ++ [nn]) (V_S.erase nn) A1 pq2
            ⟨hS1nd, hVS1nd, hS1n, hVS1n, hdisj1, hcover1, hpq2⟩
          have hsortS1 : ∀ x, x ∈ List.insertionSort (· ≤ ·) (S ++ [nn]) ↔
              x ∈ S ++ [nn] := fun x => (List.perm_insertionSort _ _).mem_iff
          have hsortV1 : ∀ x, x ∈ List.insertionSort (· ≤ ·) (V_S.erase nn) ↔
              x ∈ V_S.erase nn := fun x => (List.perm_insertionSort _ _).mem_iff
          have hA1S : ∀ m ∈ S, A1 m = A m := by
            intro m hm
            have : m ≠ nn := fun hmn => hnnS (hmn ▸ hm)
            simp [hA1, updA, this]
          have headPok : PartitionOk g (List.insertionSort (· ≤ ·) (S ++ [nn]),
              List.insertionSort (· ≤ ·) (V_S.erase nn), g.edges, A1) := by
            refine ⟨sort_sorted_lt _ hS1nd, sort_sorted_lt _ hVS1nd, ?_, ?_⟩
            · intro x hx hx2
              exact hdisj1 x ((hsortS1 x).1 hx) ((hsortV1 x).1 hx2)
            · exact ((List.perm_insertionSort _ _).append
                (List.perm_insertionSort _ _)).trans
                (perm_nodes_of_partition g hS1nd hVS1nd hdisj1 hS1n hVS1n hcover1)
          have headSLe : StateLe S V_S A (List.insertionSort (· ≤ ·) (S ++ [nn]),
              List.insertionSort (· ≤ ·) (V_S.erase nn), g.edges, A1) := by
            refine ⟨?_, ?_, ?_⟩
            · intro x hx
              exact (hsortS1 x).2 (List.mem_append.2 (Or.inl hx))
            · intro x hx
              exact List.mem_of_mem_erase ((hsortV1 x).1 hx)
            · exact hA1S
          have hcompose : ∀ snap, StateLe (S ++ [nn]) (V_S.erase nn) A1 snap →
              StateLe S V_S A snap := by
            intro snap hsl
            refine ⟨?_, ?_, ?_⟩
            · intro x hx
              exact hsl.1 x (List.mem_append.2 (Or.inl hx))
            · intro x hx
              exact List.mem_of_mem_erase (hsl.2.1 x hx)
            · intro m hm
              rw [hsl.2.2 m (List.mem_append.2 (Or.inl hm))]
              exact hA1S m hm
          have headDStep : ∀ snap, StateLe (S ++ [nn]) (V_S.erase nn) A1 snap →
              DStep (List.insertionSort (· ≤ ·) (S ++ [nn]),
                List.insertionSort (· ≤ ·) (V_S.erase nn), g.edges, A1) snap := by
            intro snap hsl
            refine ⟨?_, ?_, ?_⟩
            · intro x hx
              exact hsl.1 x ((hsortS1 x).1 hx)
            · intro x hx
              exact (hsortV1 x).2 (hsl.2.1 x hx)
            · intro m hm
              exact hsl.2.2 m ((hsortS1 m).1 hm)
          constructor
          · intro snap hsnap
            rcases List.mem_cons.1 hsnap with rfl | hsnap
            · exact ⟨headPok, headSLe⟩
            · obtain ⟨hp, hs⟩ := hIH.1 snap hsnap
              exact ⟨hp, hcompose snap hs⟩
          · rw [List.pairwise_cons]
            refine ⟨?_, hIH.2⟩
            intro snap hsnap
            exact headDStep snap (hIH.1 snap hsnap).2

end LoopInvariantMain


section RunInvariant

/-- All snapshots of a `dijkstra` run are well-formed partitions lying in
the future of the initial state, and the sequence is pairwise monotone. -/
theorem dijkstraRun_invariant {α : Type} [LinearOrder α] (g : WGraph α)
    (s : α) (h : s ∈ g.nodes) :
    (∀ snap ∈ (dijkstraRun g s).1, PartitionOk g snap ∧
        StateLe [s] (g.nodes.filter (· ≠ s)) (initA g s) snap) ∧
      (dijkstraRun g s).1.Pairwise DStep := by
  have hns : ¬ s ∉ g.nodes := not_not_intro h
  simp only [dijkstraRun, hns, if_false]
  have hS0nd : ([s] : List α).Nodup := List.nodup_singleton s
  have hV0nd : (g.nodes.filter (· ≠ s)).Nodup := g.nodup.filter _
  have hS0n : ∀ x ∈ ([s] : List α), x ∈ g.nodes := by
    intro x hx
    rw [List.mem_singleton.1 hx]
    exact h
  have hV0n : ∀ x ∈ g.nodes.filter (· ≠ s), x ∈ g.nodes :=
    fun x hx => (List.mem_filter.1 hx).1
  have hdisj0 : ∀ x ∈ ([s] : List α), x ∉ g.nodes.filter (· ≠ s) := by
    intro x hx hxf
    have h2 := (List.mem_filter.1 hxf).2
    rw [List.mem_singleton.1 hx] at h2
    simp at h2
  have hcover0 : ∀ x ∈ g.nodes, x ∈ ([s] : List α) ∨
      x ∈ g.nodes.filter (· ≠ s) := by
    intro x hx
    by_cases hxs : x = s
    · exact Or.inl (List.mem_singleton.2 hxs)
    · exact Or.inr (List.mem_filter.2 ⟨hx, by simpa using hxs⟩)
  have hsortS0 : ∀ x, x ∈ List.insertionSort (· ≤ ·) ([s] : List α) ↔
      x ∈ ([s] : List α) := fun x => (List.perm_insertionSort _ _).mem_iff
  have hsortV0 : ∀ x, x ∈ List.insertionSort (· ≤ ·) (g.nodes.filter (· ≠ s)) ↔
      x ∈ g.nodes.filter (· ≠ s) := fun x => (List.perm_insertionSort _ _).mem_iff
  have hPok0 : PartitionOk g (List.insertionSort (· ≤ ·) ([s] : List α),
      List.insertionSort (· ≤ ·) (g.nodes.filter (· ≠ s)), g.edges, initA g s) := by
    refine ⟨sort_sorted_lt _ hS0nd, sort_sorted_lt _ hV0nd, ?_, ?_⟩
    · intro x hx hx2
      exact hdisj0 x ((hsortS0 x).1 hx) ((hsortV0 x).1 hx2)
    · exact ((List.perm_insertionSort _ _).append
        (List.perm_insertionSort _ _)).trans
        (perm_nodes_of_partition g hS0nd hV0nd hdisj0 hS0n hV0n hcover0)
  have hSLe0 : StateLe [s] (g.nodes.filter (· ≠ s)) (initA g s)
      (List.insertionSort (· ≤ ·) ([s] : List α),
        List.insertionSort (· ≤ ·) (g.nodes.filter (· ≠ s)), g.edges, initA g s) := by
    refine ⟨?_, ?_, ?_⟩
    · intro x hx
      exact (hsortS0 x).2 hx
    · intro x hx
      exact (hsortV0 x).1 hx
    · intro m _
      rfl
  split
  · constructor
    · intro snap hsnap
      rw [List.mem_singleton.1 hsnap]
      exact ⟨hPok0, hSLe0⟩
    · exact List.pairwise_singleton _ _
  · rename_i pq hseed
    have hstep : ∀ q nb, nb ∈ nbrs g s → ∀ q2,
        minInsert q (s, nb)
          (flAddT ((initA g s) s).cost (wOf g s nb)) = some q2 →
        ∀ x ∈ q2, x ∈ q ∨ (x.item.1 ∈ g.nodes ∧ x.item.2 ∈ g.nodes) := by
      intro q nb hnb q2 hq2 x hx
      rcases minInsert_mem hq2 x hx with h2 | h2
      · exact Or.inl h2
      · refine Or.inr ?_
        rw [h2]
        exact ⟨h, nbrs_mem g s nb hnb⟩
    have hpq0 : ∀ e ∈ pq, e.item.1 ∈ g.nodes ∧ e.item.2 ∈ g.nodes := by
      intro e he
      rcases foldlM_step_mem (fun x => x.item.1 ∈ g.nodes ∧ x.item.2 ∈ g.nodes)
          (nbrs g s) _ hstep [] pq hseed e he with h1 | h1
      · exact absurd h1 (List.not_mem_nil e)
      · exact h1
    have hIH := dijkstraLoop_invariant g (dijkstraFuel g) [s]
      (g.nodes.filter (· ≠ s)) (initA g s) pq
      ⟨hS0nd, hV0nd, hS0n, hV0n, hdisj0, hcover0, hpq0⟩
    constructor
    · intro snap hsnap
      rcases List.mem_cons.1 hsnap with rfl | hsnap
      · exact ⟨hPok0, hSLe0⟩
      · exact hIH.1 snap hsnap
    · rw [List.pairwise_cons]
      refine ⟨?_, hIH.2⟩
      intro snap hsnap
      obtain ⟨_, hsl⟩ := hIH.1 snap hsnap
      refine ⟨?_, ?_, ?_⟩
      · intro x hx
        exact hsl.1 x ((hsortS0 x).1 hx)
      · intro x hx
        exact (hsortV0 x).2 (hsl.2.1 x hx)
      · intro m hm
        exact hsl.2.2 m ((hsortS0 m).1 hm)

end RunInvariant

section MonotonePartitionClaims

/-- Claim C7: across the snapshots yielded by `dijkstra` (for a valid start
node), the explored list only grows and the unexplored list only shrinks
from any snapshot to any later one, and the cost-table record (cost and
parent) of a node already explored in the earlier snapshot is identical in
the later one. -/
theorem C7_dijkstra_monotone {α : Type} [LinearOrder α] (g : WGraph α)
    (s : α) (h : s ∈ g.nodes) :
    (dijkstraRun g s).1.Pairwise DStep :=
  (dijkstraRun_invariant g s h).2

/-- Witness for `C7_dijkstra_monotone` at the example graph. -/
theorem C7_dijkstra_monotone_witness :
    (dijkstraRun exG 0).1.Pairwise DStep :=
  C7_dijkstra_monotone exG 0 (by decide)

/-- Claim C10: in every snapshot yielded by `dijkstra` (for a valid start
node), the explored and unexplored lists are strictly sorted, disjoint, and
together are a permutation of the graph's node list. -/
theorem C10_dijkstra_partition {α : Type} [LinearOrder α] (g : WGraph α)
    (s : α) (h : s ∈ g.nodes) :
    ∀ snap ∈ (dijkstraRun g s).1, PartitionOk g snap :=
  fun snap hs => ((dijkstraRun_invariant g s h).1 snap hs).1

/-- Witness for `C10_dijkstra_partition` at the example graph. -/
theorem C10_dijkstra_partition_witness :
    0 ∈ exG.nodes ∧ ∀ snap ∈ (dijkstraRun exG 0).1, PartitionOk exG snap :=
  ⟨by decide, C10_dijkstra_partition exG 0 (by decide)⟩

end MonotonePartitionClaims


section HeapIndexLemmas

/-- Position of the parent strictly precedes a non-root position. -/
theorem parentIdx_lt {i : ℕ} (h : 0 < i) : parentIdx i < i :=
  lt_of_le_of_lt (Nat.div_le_self (i - 1) 2) (by omega)

/-- Reading at a nonnegative index is plain list indexing. -/
theorem pyGet_natCast {γ : Type} (l : List γ) (k : ℕ) :
    pyGet l (k : ℤ) = l[k]? := by
  unfold pyGet pyIdx
  by_cases hk : k < l.length
  · rw [if_pos (by positivity), if_pos (by exact_mod_cast hk)]
    simp
  · rw [if_pos (by positivity), if_neg (by exact_mod_cast hk)]
    rw [List.getElem?_eq_none (by omega)]
    rfl

/-- Parent index arithmetic at a nonnegative non-root position. -/
theorem getParentIndex_natCast {α β : Type} (l : List (HEntry α β)) (k : ℕ)
    (hne : l ≠ []) (hk : 0 < k) :
    getParentIndex l (k : ℤ) = some ((parentIdx k : ℕ) : ℤ) := by
  unfold getParentIndex
  rw [if_neg (by simpa using hne), if_neg (by exact_mod_cast Nat.pos_iff_ne_zero.1 hk)]
  unfold parentIdx
  rw [Int.fdiv_eq_ediv _ (by norm_num)]
  congr 1
  omega

/-- Root position has no parent. -/
theorem getParentIndex_zero {α β : Type} (l : List (HEntry α β)) :
    getParentIndex l (0 : ℤ) = none := by
  unfold getParentIndex
  by_cases h : l.isEmpty
  · rw [if_pos h]
  · rw [if_neg h, if_pos rfl]

/-- Left-child truthiness at a nonnegative position. -/
theorem left_truthy {α β : Type} (l : List (HEntry α β)) (k : ℕ) (hne : l ≠ []) :
    intTruthy (getLeftIndex l (k : ℤ)) = true ↔ 2 * k + 1 < l.length := by
  unfold getLeftIndex
  rw [if_neg (by simpa using hne)]
  by_cases h : 2 * k + 1 < l.length
  · rw [if_neg (by push_cast; omega)]
    simp [intTruthy]
    omega
  · rw [if_pos (by push_cast; omega)]
    simp [intTruthy]
    omega

/-- Right-child truthiness at a nonnegative position. -/
theorem right_truthy {α β : Type} (l : List (HEntry α β)) (k : ℕ) (hne : l ≠ []) :
    intTruthy (getRightIndex l (k : ℤ)) = true ↔ 2 * k + 2 < l.length := by
  unfold getRightIndex
  rw [if_neg (by simpa using hne)]
  by_cases h : 2 * k + 2 < l.length
  · rw [if_neg (by push_cast; omega)]
    simp [intTruthy]
    omega
  · rw [if_pos (by push_cast; omega)]
    simp [intTruthy]
    omega

/-- The value of `getLeftIndex` at a nonnegative position, when present. -/
theorem getLeftIndex_eq {α β : Type} (l : List (HEntry α β)) (k : ℕ)
    (hne : l ≠ []) (h : 2 * k + 1 < l.length) :
    getLeftIndex l (k : ℤ) = some ((2 * k + 1 : ℕ) : ℤ) := by
  unfold getLeftIndex
  rw [if_neg (by simpa using hne), if_neg (by push_cast; omega)]
  norm_cast

/-- The value of `getRightIndex` at a nonnegative position, when present. -/
theorem getRightIndex_eq {α β : Type} (l : List (HEntry α β)) (k : ℕ)
    (hne : l ≠ []) (h : 2 * k + 2 < l.length) :
    getRightIndex l (k : ℤ) = some ((2 * k + 2 : ℕ) : ℤ) := by
  unfold getRightIndex
  rw [if_neg (by simpa using hne), if_neg (by push_cast; omega)]
  norm_cast

/-- A successful in-range swap, described through `getElem?`. -/
theorem pySwap_natCast {γ : Type} {l : List γ} {p k : ℕ}
    (hp : p < l.length) (hk : k < l.length) :
    ∃ l2, pySwap l (p : ℤ) (k : ℤ) = some l2 ∧ l2.length = l.length ∧
      l2[p]? = l[k]? ∧ l2[k]? = l[p]? ∧
      ∀ j : ℕ, j ≠ p → j ≠ k → l2[j]? = l[j]? := by
  obtain ⟨a, ha⟩ : ∃ x, l[p]? = some x := by
    rw [List.getElem?_eq_getElem hp]
    exact ⟨_, rfl⟩
  obtain ⟨b, hb⟩ : ∃ x, l[k]? = some x := by
    rw [List.getElem?_eq_getElem hk]
    exact ⟨_, rfl⟩
  have hgp : pyGet l (p : ℤ) = some a := by rw [pyGet_natCast]; exact ha
  have hgk : pyGet l (k : ℤ) = some b := by rw [pyGet_natCast]; exact hb
  have hset1 : pySet l (p : ℤ) b = some (l.set p b) := by
    unfold pySet pyIdx
    rw [if_pos (by positivity), if_pos (by exact_mod_cast hp)]
    simp
  have hlen1 : (l.set p b).length = l.length := List.length_set l p b
  have hset2 : pySet (l.set p b) (k : ℤ) a = some ((l.set p b).set k a) := by
    unfold pySet pyIdx
    rw [if_pos (by positivity), if_pos (by rw [hlen1]; exact_mod_cast hk)]
    simp
  refine ⟨(l.set p b).set k a, ?_, ?_, ?_, ?_, ?_⟩
  · unfold pySwap
    simp only [hgp, hgk, Option.bind_eq_bind, Option.some_bind, hset1, hset2]
  · simp
  · by_cases hpk : p = k
    · subst hpk
      rw [List.getElem?_set, if_pos rfl, if_pos (by rw [hlen1]; omega), hb]
      exact ha.symm.trans hb
    · rw [List.getElem?_set, if_neg (fun hc => hpk hc.symm), List.getElem?_set,
        if_pos rfl, if_pos hp, hb]
  · rw [List.getElem?_set, if_pos rfl, if_pos (by rw [hlen1]; omega), ha]
  · intro j hjp hjk
    rw [List.getElem?_set, if_neg (fun hc => hjk hc.symm), List.getElem?_set,
      if_neg (fun hc => hjp hc.symm)]

end HeapIndexLemmas


section MinHeapCorrect

/-- `_heapify_up` (MinHeap) from an almost-heap state reaches a heap state,
succeeds, and preserves length, given fuel `> k`. -/
theorem minHeapifyUpGo_correct {α β : Type} [LinearOrder β] :
    ∀ (fuel : ℕ) (l : List (HEntry α β)) (k : ℕ), k < l.length → k + 1 ≤ fuel →
      MinUpOk l k →
      ∃ l2, minHeapifyUpGo fuel l (k : ℤ) = some l2 ∧ l2.length = l.length ∧
        IsMinHeap l2 := by
  intro fuel
  induction fuel with
  | zero => intro l k _ hf; omega
  | succ n ih =>
    intro l k hk hf hok
    have hne : l ≠ [] := List.ne_nil_of_length_pos (by omega)
    by_cases hk0 : k = 0
    · subst hk0
      refine ⟨l, ?_, rfl, ?_⟩
      · simp only [minHeapifyUpGo, Nat.cast_zero, getParentIndex_zero]
      · intro j hj e hej p hpj
        exact hok.1 j hj (by omega) e hej p hpj
    · have hkpos : 0 < k := Nat.pos_of_ne_zero hk0
      have hplt : parentIdx k < k := parentIdx_lt hkpos
      have hp : parentIdx k < l.length := hplt.trans hk
      obtain ⟨ep, hep⟩ : ∃ x, l[parentIdx k]? = some x :=
        ⟨_, List.getElem?_eq_getElem hp⟩
      obtain ⟨ei, hei⟩ : ∃ x, l[k]? = some x := ⟨_, List.getElem?_eq_getElem hk⟩
      by_cases hle : ep.value ≤ ei.value
      · have hcall : minHeapifyUpGo (n + 1) l (k : ℤ) = some l := by
          simp only [minHeapifyUpGo, getParentIndex_natCast l k hne hkpos,
            pyGet_natCast, hep, hei, Option.bind_eq_bind, Option.some_bind,
            hle, if_true]
        refine ⟨l, hcall, rfl, ?_⟩
        intro j hj e hej p hpj
        by_cases hjk : j = k
        · subst hjk
          rw [hei, Option.mem_some_iff] at hej
          rw [hep, Option.mem_some_iff] at hpj
          rw [← hej, ← hpj]
          exact hle
        · exact hok.1 j hj hjk e hej p hpj
      · have hlt : ei.value < ep.value := lt_of_not_le hle
        obtain ⟨l1, hsw, hlen, hswp, hswk, hswo⟩ := pySwap_natCast hp hk
        have hcall : minHeapifyUpGo (n + 1) l (k : ℤ) =
            minHeapifyUpGo n l1 ((parentIdx k : ℕ) : ℤ) := by
          simp only [minHeapifyUpGo, getParentIndex_natCast l k hne hkpos,
            pyGet_natCast, hep, hei, Option.bind_eq_bind, Option.some_bind,
            hle, if_false, hlt, if_true, hsw]
        have hok1 : MinUpOk l1 (parentIdx k) := by
          constructor
          · intro j hj hjp e hej q hqj
            by_cases hjk : j = k
            · subst hjk
              rw [hswk, hep, Option.mem_some_iff] at hej
              rw [hswp, hei, Option.mem_some_iff] at hqj
              rw [← hej, ← hqj]
              exact hlt.le
            · rw [hswo j hjp hjk] at hej
              by_cases hpjk : parentIdx j = k
              · rw [hpjk, hswk, hep, Option.mem_some_iff] at hqj
                rw [← hqj]
                exact hok.2 hkpos j hj hpjk e hej ep hep
              · by_cases hpjp : parentIdx j = parentIdx k
                · rw [hpjp, hswp, hei, Option.mem_some_iff] at hqj
                  rw [← hqj]
                  refine le_trans hlt.le ?_
                  have := hok.1 j hj hjk e hej ep (by rw [← hpjp] at hep; exact hep)
                  exact this
                · rw [hswo (parentIdx j) hpjp hpjk] at hqj
                  exact hok.1 j hj hjk e hej q hqj
          · intro hppos j hj hpj e hej q hqj
            have hpplt : parentIdx (parentIdx k) < parentIdx k := parentIdx_lt hppos
            have hppk : parentIdx (parentIdx k) ≠ parentIdx k := by omega
            have hppk2 : parentIdx (parentIdx k) ≠ k := by omega
            rw [hswo (parentIdx (parentIdx k)) hppk hppk2] at hqj
            by_cases hjk : j = k
            · rw [hjk] at hej
              rw [hswk, hep, Option.mem_some_iff] at hej
              rw [← hej]
              exact hok.1 (parentIdx k) hppos (by omega) ep hep q hqj
            · have hjp : j ≠ parentIdx k := by
                have := parentIdx_lt hj
                omega
              rw [hswo j hjp hjk] at hej
              have h1 := hok.1 j hj hjk e hej ep (by rw [hpj]; exact hep)
              have h2 := hok.1 (parentIdx k) hppos (by omega) ep hep q hqj
              exact le_trans h2 h1
        obtain ⟨l2, hrec, hlen2, hheap⟩ := ih l1 (parentIdx k)
          (by rw [hlen]; exact hp) (by omega) hok1
        exact ⟨l2, by rw [hcall]; exact hrec, by rw [hlen2, hlen], hheap⟩

end MinHeapCorrect


section MinHeapDownCorrect

/-- Membership in a known cell pins the element. -/
theorem mem_getElem?_eq {γ : Type} {l : List γ} {j : ℕ} {x y : γ}
    (hx : l[j]? = some x) (hy : y ∈ l[j]?) : y = x := by
  rw [hx, Option.mem_some_iff] at hy
  exact hy.symm

/-- `getLeftIndex` only returns the in-range left child position. -/
theorem getLeftIndex_some {α β : Type} {l : List (HEntry α β)} {k : ℕ} {x : ℤ}
    (h : getLeftIndex l (k : ℤ) = some x) :
    x = ((2 * k + 1 : ℕ) : ℤ) ∧ 2 * k + 1 < l.length := by
  unfold getLeftIndex at h
  by_cases he : l.isEmpty
  · rw [if_pos he] at h
    exact Option.noConfusion h
  · rw [if_neg he] at h
    by_cases hr : (l.length : ℤ) ≤ 2 * (k : ℤ) + 1
    · rw [if_pos hr] at h
      exact Option.noConfusion h
    · rw [if_neg hr] at h
      refine ⟨by rw [← Option.some.inj h]; push_cast; ring, by push_cast at hr; omega⟩

/-- `getRightIndex` only returns the in-range right child position. -/
theorem getRightIndex_some {α β : Type} {l : List (HEntry α β)} {k : ℕ} {x : ℤ}
    (h : getRightIndex l (k : ℤ) = some x) :
    x = ((2 * k + 2 : ℕ) : ℤ) ∧ 2 * k + 2 < l.length := by
  unfold getRightIndex at h
  by_cases he : l.isEmpty
  · rw [if_pos he] at h
    exact Option.noConfusion h
  · rw [if_neg he] at h
    by_cases hr : (l.length : ℤ) ≤ 2 * (k : ℤ) + 2
    · rw [if_pos hr] at h
      exact Option.noConfusion h
    · rw [if_neg hr] at h
      refine ⟨by rw [← Option.some.inj h]; push_cast; ring, by push_cast at hr; omega⟩

/-- Characterization of one selection step of `_heapify_down` (MinHeap): it
succeeds, returns `best` or the candidate, and the selected cell is no
larger than either. -/
theorem minPickSmaller_spec {α β : Type} [LinearOrder β] (l : List (HEntry α β))
    (c : Option ℤ) (best : ℕ) (hb : best < l.length)
    (hc : ∀ x, c = some x → ∃ m : ℕ, x = (m : ℤ) ∧ m < l.length ∧ m ≠ 0) :
    ∃ s : ℕ, minPickSmaller l c best = some (s : ℤ) ∧ s < l.length ∧
      (s = best ∨ c = some (s : ℤ)) ∧
      (∀ e ∈ l[s]?, ∀ a ∈ l[best]?, e.value ≤ a.value) ∧
      (∀ m : ℕ, c = some ((m : ℕ) : ℤ) → m < l.length →
        ∀ e ∈ l[s]?, ∀ a ∈ l[m]?, e.value ≤ a.value) := by
  cases c with
  | none =>
    refine ⟨best, by unfold minPickSmaller; rw [if_neg (by simp [intTruthy])]; rfl,
      hb, Or.inl rfl, ?_, ?_⟩
    · intro e he a ha
      obtain ⟨x, hx⟩ : ∃ x, l[best]? = some x := ⟨_, List.getElem?_eq_getElem hb⟩
      rw [mem_getElem?_eq hx he, mem_getElem?_eq hx ha]
    · intro m hm
      exact absurd hm (by simp)
  | some x =>
    obtain ⟨m, rfl, hmlen, hm0⟩ := hc x rfl
    have htr : intTruthy (some ((m : ℕ) : ℤ)) = true := by
      simp only [intTruthy, bne_iff_ne, ne_eq]
      exact_mod_cast hm0
    obtain ⟨ec, hec⟩ : ∃ y, l[m]? = some y := ⟨_, List.getElem?_eq_getElem hmlen⟩
    obtain ⟨eb, heb⟩ : ∃ y, l[best]? = some y := ⟨_, List.getElem?_eq_getElem hb⟩
    by_cases hlt : ec.value < eb.value
    · have hcall : minPickSmaller l (some ((m : ℕ) : ℤ)) best = some ((m : ℕ) : ℤ) := by
        unfold minPickSmaller
        rw [if_pos htr]
        simp only [Option.getD_some, Option.bind_eq_bind, pyGet_natCast, hec, heb,
          Option.some_bind, hlt, if_true]
        rfl
      refine ⟨m, hcall, hmlen, Or.inr rfl, ?_, ?_⟩
      · intro e he a ha
        rw [mem_getElem?_eq hec he, mem_getElem?_eq heb ha]
        exact hlt.le
      · intro m2 hm2 _ e he a ha
        have hm2m : m2 = m := by exact_mod_cast Option.some.inj hm2.symm
        subst hm2m
        rw [mem_getElem?_eq hec he, mem_getElem?_eq hec ha]
    · have hcall : minPickSmaller l (some ((m : ℕ) : ℤ)) best = some ((best : ℕ) : ℤ) := by
        unfold minPickSmaller
        rw [if_pos htr]
        simp only [Option.getD_some, Option.bind_eq_bind, pyGet_natCast, hec, heb,
          Option.some_bind, hlt, if_false]
        rfl
      refine ⟨best, hcall, hb, Or.inl rfl, ?_, ?_⟩
      · intro e he a ha
        rw [mem_getElem?_eq heb he, mem_getElem?_eq heb ha]
      · intro m2 hm2 _ e he a ha
        have hm2m : m2 = m := by exact_mod_cast Option.some.inj hm2.symm
        subst hm2m
        rw [mem_getElem?_eq heb he, mem_getElem?_eq hec ha]
        exact not_lt.1 hlt

end MinHeapDownCorrect


section MinHeapDownMain

/-- `_heapify_down` (MinHeap) from an almost-heap state reaches a heap
state, succeeds, and preserves length, given fuel `≥ len - k`. -/
theorem minHeapifyDownGo_correct {α β : Type} [LinearOrder β] :
    ∀ (fuel : ℕ) (l : List (HEntry α β)) (k : ℕ), k < l.length →
      l.length ≤ fuel + k → MinDownOk l k →
      ∃ l2, minHeapifyDownGo fuel l (k : ℤ) = some l2 ∧ l2.length = l.length ∧
        IsMinHeap l2 := by
  intro fuel
  induction fuel with
  | zero => intro l k hk hf; omega
  | succ n ih =>
    intro l k hk hf hok
    have hne : l ≠ [] := List.ne_nil_of_length_pos (by omega)
    have hjlen : ∀ (j : ℕ) (e : HEntry α β), e ∈ l[j]? → j < l.length := by
      intro j e he
      by_contra hc
      rw [List.getElem?_eq_none (by omega)] at he
      exact absurd he (by simp)
    by_cases hguard : ¬ intTruthy (getLeftIndex l (k : ℤ)) = true ∧
        ¬ intTruthy (getRightIndex l (k : ℤ)) = true
    · have hcall : minHeapifyDownGo (n + 1) l (k : ℤ) = some l := by
        rw [minHeapifyDownGo, if_pos hguard]
      refine ⟨l, hcall, rfl, ?_⟩
      intro j hj e hej q hqj
      by_cases hpjk : parentIdx j = k
      · exfalso
        have hjl : j < l.length := hjlen j e hej
        have hLlt : 2 * k + 1 < l.length := by
          unfold parentIdx at hpjk
          omega
        exact hguard.1 ((left_truthy l k hne).2 hLlt)
      · exact hok.1 j hj hpjk e hej q hqj
    · have hL : 2 * k + 1 < l.length := by
        rcases not_and_or.1 hguard with h | h
        · have := not_not.1 (fun hc => h (fun hcc => hc hcc))
          exact (left_truthy l k hne).1 (by revert this; simp)
        · have := not_not.1 (fun hc => h (fun hcc => hc hcc))
          have h2 := (right_truthy l k hne).1 (by revert this; simp)
          omega
      have hcL : getLeftIndex l (k : ℤ) = some ((2 * k + 1 : ℕ) : ℤ) :=
        getLeftIndex_eq l k hne hL
      obtain ⟨s1, hs1eq, hs1len, hs1or, hs1b, hs1c⟩ :=
        minPickSmaller_spec l (getLeftIndex l (k : ℤ)) k hk
          (fun x hx => ⟨2 * k + 1, (getLeftIndex_some hx).1, (getLeftIndex_some hx).2,
            by omega⟩)
      obtain ⟨s2, hs2eq, hs2len, hs2or, hs2b, hs2c⟩ :=
        minPickSmaller_spec l (getRightIndex l (k : ℤ)) s1 hs1len
          (fun x hx => ⟨2 * k + 2, (getRightIndex_some hx).1, (getRightIndex_some hx).2,
            by omega⟩)
      have hs1val : s1 = k ∨ s1 = 2 * k + 1 := by
        rcases hs1or with h | h
        · exact Or.inl h
        · rw [hcL] at h
          have h2 : ((2 * k + 1 : ℕ) : ℤ) = ((s1 : ℕ) : ℤ) := Option.some.inj h
          exact Or.inr (by exact_mod_cast h2.symm)
      have hs2val : s2 = s1 ∨ s2 = 2 * k + 2 := by
        rcases hs2or with h | h
        · exact Or.inl h
        · obtain ⟨hx, _⟩ := getRightIndex_some h
          exact Or.inr (by exact_mod_cast hx)
      -- the chain: l[s2] ≤ l[k], l[s2] ≤ l[2k+1], and (right in range) l[s2] ≤ l[2k+2]
      obtain ⟨ek, hek⟩ : ∃ y, l[k]? = some y := ⟨_, List.getElem?_eq_getElem hk⟩
      obtain ⟨e1, he1⟩ : ∃ y, l[s1]? = some y := ⟨_, List.getElem?_eq_getElem hs1len⟩
      obtain ⟨e2, he2⟩ : ∃ y, l[s2]? = some y := ⟨_, List.getElem?_eq_getElem hs2len⟩
      have h21 : e2.value ≤ e1.value := by
        have := hs2b e2 (by rw [he2]; rfl) e1 (by rw [he1]; rfl)
        exact this
      have h1k : e1.value ≤ ek.value := by
        have := hs1b e1 (by rw [he1]; rfl) ek (by rw [hek]; rfl)
        exact this
      have h2k : e2.value ≤ ek.value := le_trans h21 h1k
      have hs2L : ∀ eL ∈ l[2 * k + 1]?, e2.value ≤ eL.value := by
        intro eL heL
        have hbound := hs1c (2 * k + 1) hcL hL e1 (by rw [he1]; rfl) eL heL
        exact le_trans h21 hbound
      have hs2R : 2 * k + 2 < l.length → ∀ eR ∈ l[2 * k + 2]?,
          e2.value ≤ eR.value := by
        intro hRlen eR heR
        have hcR : getRightIndex l (k : ℤ) = some ((2 * k + 2 : ℕ) : ℤ) :=
          getRightIndex_eq l k hne hRlen
        exact hs2c (2 * k + 2) hcR hRlen e2 (by rw [he2]; rfl) eR heR
      by_cases hs2k : s2 = k
      · have hcall : minHeapifyDownGo (n + 1) l (k : ℤ) = some l := by
          rw [minHeapifyDownGo, if_neg hguard]
          simp only [Option.bind_eq_bind, hs1eq, Option.some_bind, hs2eq]
          rw [if_neg (by exact_mod_cast not_not_intro hs2k)]
        refine ⟨l, hcall, rfl, ?_⟩
        intro j hj e hej q hqj
        by_cases hpjk : parentIdx j = k
        · have hjl : j < l.length := hjlen j e hej
          have hq : q = ek := mem_getElem?_eq (by rw [hpjk] at hqj ⊢; exact hek) hqj
          have hjval : j = 2 * k + 1 ∨ j = 2 * k + 2 := by
            unfold parentIdx at hpjk
            omega
          have hs2ek : e2.value = ek.value := by
            rw [hs2k] at he2
            rw [mem_getElem?_eq hek (by rw [he2]; rfl : e2 ∈ l[k]?)]
          rcases hjval with rfl | rfl
          · rw [hq]
            rw [← hs2ek]
            exact hs2L e hej
          · rw [hq]
            rw [← hs2ek]
            exact hs2R hjl e hej
        · exact hok.1 j hj hpjk e hej q hqj
      · -- swap with the smaller child s2 and recurse there
        have hks2 : k < s2 := by
          rcases hs2val with h | h
          · rcases hs1val with h1 | h1
            · exact absurd (h.trans h1) hs2k
            · omega
          · omega
        obtain ⟨l1, hsw, hlen, hswk, hsws2, hswo⟩ := pySwap_natCast hk hs2len
        have hcall : minHeapifyDownGo (n + 1) l (k : ℤ) =
            minHeapifyDownGo n l1 ((s2 : ℕ) : ℤ) := by
          rw [minHeapifyDownGo, if_neg hguard]
          simp only [Option.bind_eq_bind, hs1eq, Option.some_bind, hs2eq]
          rw [if_pos (by exact_mod_cast fun hc => hs2k (by exact_mod_cast hc))]
          simp only [hsw, Option.some_bind]
        have hps2 : parentIdx s2 = k := by
          unfold parentIdx
          rcases hs2val with h | h
          · rcases hs1val with h1 | h1
            · exact absurd (h.trans h1) hs2k
            · omega
          · omega
        have hok1 : MinDownOk l1 s2 := by
          constructor
          · intro j hj hpjs2 e hej q hqj
            by_cases hjk : j = k
            · subst hjk
              rw [hswk, he2, Option.mem_some_iff] at hej
              have hpjne : parentIdx j ≠ j := by
                have := parentIdx_lt hj
                omega
              have hpjs : parentIdx j ≠ s2 := by omega
              rw [hswo (parentIdx j) (by have := parentIdx_lt hj; omega) hpjs] at hqj
              rw [← hej]
              exact hok.2 hj s2 (by omega) hps2 e2 he2 q hqj
            · by_cases hjs2 : j = s2
              · subst hjs2
                rw [hsws2, hek, Option.mem_some_iff] at hej
                rw [hps2, hswk, he2, Option.mem_some_iff] at hqj
                rw [← hej, ← hqj]
                exact h2k
              · rw [hswo j hjk hjs2] at hej
                by_cases hpjk : parentIdx j = k
                · have hjl : j < l.length := hjlen j e hej
                  have hjval : j = 2 * k + 1 ∨ j = 2 * k + 2 := by
                    unfold parentIdx at hpjk
                    omega
                  rw [hpjk, hswk, he2, Option.mem_some_iff] at hqj
                  rw [← hqj]
                  rcases hjval with rfl | rfl
                  · exact hs2L e hej
                  · exact hs2R hjl e hej
                · rw [hswo (parentIdx j) hpjk hpjs2] at hqj
                  exact hok.1 j hj hpjk e hej q hqj
          · intro hs2pos j hj hpjs2 e hej q hqj
            have hjgt : s2 < j := by
              have := parentIdx_lt hj
              omega
            have hjk : j ≠ k := by omega
            have hjs2 : j ≠ s2 := by omega
            rw [hswo j hjk hjs2] at hej
            rw [hps2, hswk, he2, Option.mem_some_iff] at hqj
            rw [← hqj]
            have := hok.1 j hj (by rw [hpjs2]; exact hs2k) e hej
            rw [hpjs2, he2] at this
            exact this e2 rfl
        obtain ⟨l2, hrec, hlen2, hheap⟩ := ih l1 s2 (by rw [hlen]; exact hs2len)
          (by omega) hok1
        exact ⟨l2, by rw [hcall]; exact hrec, by rw [hlen2, hlen], hheap⟩

end MinHeapDownMain


section MinHeapOps

/-- The empty backing list is a min-heap. -/
theorem isMinHeap_nil {α β : Type} [LinearOrder β] :
    IsMinHeap ([] : List (HEntry α β)) := by
  intro i hi e he
  simp at he

/-- A one-element backing list is a min-heap. -/
theorem isMinHeap_singleton {α β : Type} [LinearOrder β] (a : HEntry α β) :
    IsMinHeap [a] := by
  intro i hi e he
  rw [List.getElem?_eq_none (by simp; omega)] at he
  exact absurd he (Option.not_mem_none e)

/-- `insert` (MinHeap) succeeds, grows the list by one, and preserves the
heap invariant. -/
theorem minInsert_heap {α β : Type} [LinearOrder β] {l : List (HEntry α β)}
    (hheap : IsMinHeap l) (a : α) (v : β) :
    ∃ l2, minInsert l a v = some l2 ∧ l2.length = l.length + 1 ∧
      IsMinHeap l2 := by
  have hlen1 : (l ++ [HEntry.mk a v]).length = l.length + 1 := by simp
  have hok : MinUpOk (l ++ [HEntry.mk a v]) l.length := by
    constructor
    · intro j hj hjne e hej p hpj
      by_cases hjlt : j < l.length
      · rw [List.getElem?_append_left hjlt] at hej
        rw [List.getElem?_append_left ((parentIdx_lt hj).trans hjlt)] at hpj
        exact hheap j hj e hej p hpj
      · rw [List.getElem?_eq_none (by rw [hlen1]; omega)] at hej
        exact absurd hej (Option.not_mem_none e)
    · intro hpos j hj hpj e hej p hpj2
      have hjbig : l.length + 1 ≤ j := by
        unfold parentIdx at hpj
        omega
      rw [List.getElem?_eq_none (by rw [hlen1]; omega)] at hej
      exact absurd hej (Option.not_mem_none e)
  obtain ⟨l2, hgo, hlen2, hheap2⟩ := minHeapifyUpGo_correct (l.length + 1)
    (l ++ [HEntry.mk a v]) l.length (by rw [hlen1]; omega) (le_refl _) hok
  refine ⟨l2, ?_, by rw [hlen2, hlen1], hheap2⟩
  have hidx : ((l ++ [HEntry.mk a v]).length : ℤ) - 1 = ((l.length : ℕ) : ℤ) := by
    rw [hlen1]
    push_cast
    ring
  simp only [minInsert, minHeapifyUp]
  rw [hidx, Int.natAbs_ofNat]
  exact hgo

/-- `pop` (MinHeap) succeeds and preserves the heap invariant. -/
theorem minPop_heap {α β : Type} [LinearOrder β] {l : List (HEntry α β)}
    (hheap : IsMinHeap l) :
    ∃ r l2, minPop l = some (r, l2) ∧ IsMinHeap l2 := by
  cases l with
  | nil => exact ⟨none, [], rfl, isMinHeap_nil⟩
  | cons a t =>
    cases t with
    | nil => exact ⟨some a, [], rfl, isMinHeap_nil⟩
    | cons b t2 =>
      have hdll : ((a :: b :: t2).dropLast).length = t2.length + 1 := by
        rw [List.length_dropLast]
        simp
      have hdl : ∀ j : ℕ, j < ((a :: b :: t2).dropLast).length →
          ((a :: b :: t2).dropLast)[j]? = (a :: b :: t2)[j]? := by
        intro j hj
        rw [List.getElem?_eq_getElem hj,
          List.getElem?_eq_getElem (by rw [List.length_dropLast] at hj; omega),
          List.getElem_dropLast]
      set l1 := ((a :: b :: t2).dropLast).set 0
        ((a :: b :: t2).getLast (List.cons_ne_nil a (b :: t2))) with hl1
      have hlen1 : l1.length = t2.length + 1 := by
        rw [hl1, List.length_set, hdll]
      have hl1get : ∀ j : ℕ, 0 < j →
          l1[j]? = (a :: b :: t2)[j]? ∨ l1[j]? = none := by
        intro j hj
        rw [hl1, List.getElem?_set, if_neg (by omega)]
        by_cases hjlt : j < ((a :: b :: t2).dropLast).length
        · exact Or.inl (hdl j hjlt)
        · exact Or.inr (List.getElem?_eq_none (by omega))
      have hok : MinDownOk l1 0 := by
        constructor
        · intro j hj hpj0 e hej q hqj
          rcases hl1get j hj with hje | hje
          · rw [hje] at hej
            rcases hl1get (parentIdx j) (Nat.pos_of_ne_zero hpj0) with hpe | hpe
            · rw [hpe] at hqj
              exact hheap j hj e hej q hqj
            · rw [hpe] at hqj
              exact absurd hqj (Option.not_mem_none q)
          · rw [hje] at hej
            exact absurd hej (Option.not_mem_none e)
        · intro h0
          exact absurd h0 (lt_irrefl 0)
      obtain ⟨l2, hgo, hlen2, hheap2⟩ := minHeapifyDownGo_correct
        (l1.length + 2) l1 0 (by omega) (by omega) hok
      simp only [Nat.cast_zero] at hgo
      have hwrap : minHeapifyDown l1 (0 : ℤ) =
          minHeapifyDownGo (l1.length + 2) l1 (0 : ℤ) := by
        simp [minHeapifyDown]
      refine ⟨some a, l2, ?_, hheap2⟩
      have hpop : minPop (a :: b :: t2) =
          (minHeapifyDown l1 (0 : ℤ)).map (fun x => (some a, x)) := rfl
      rw [hpop, hwrap, hgo]
      rfl

/-- `change_key` with a nonnegative index (MinHeap) succeeds, preserves the
length, and preserves the heap invariant. -/
theorem minChangeKey_heap {α β : Type} [LinearOrder β] {l : List (HEntry α β)}
    (hheap : IsMinHeap l) (i : ℤ) (hi : 0 ≤ i) (v : β) :
    ∃ l2, minChangeKey l i v = some l2 ∧ l2.length = l.length ∧
      IsMinHeap l2 := by
  by_cases hguard : l.isEmpty ∨ (l.length : ℤ) ≤ i
  · refine ⟨l, ?_, rfl, hheap⟩
    unfold minChangeKey
    rw [if_pos hguard]
  · have hg2 := hguard
    push_neg at hg2
    obtain ⟨hne', hilt⟩ := hg2
    have hne : l ≠ [] := by simpa using hne'
    have hik : i = ((i.toNat : ℕ) : ℤ) := (Int.toNat_of_nonneg hi).symm
    set k := i.toNat with hk
    have hklt : k < l.length := by omega
    obtain ⟨ek, hek⟩ : ∃ x, l[k]? = some x := ⟨_, List.getElem?_eq_getElem hklt⟩
    have hget : pyGet l i = some ek := by
      rw [hik, pyGet_natCast]
      exact hek
    have hset : pySet l i (HEntry.mk ek.item v) =
        some (l.set k (HEntry.mk ek.item v)) := by
      rw [hik]
      unfold pySet pyIdx
      rw [if_pos (by positivity), if_pos (by exact_mod_cast hklt)]
      simp
    have hcall : minChangeKey l i v =
        (if v < ek.value then minHeapifyUp (l.set k (HEntry.mk ek.item v)) i
         else minHeapifyDown (l.set k (HEntry.mk ek.item v)) i) := by
      unfold minChangeKey
      rw [if_neg hguard]
      simp only [hget, Option.bind_eq_bind, Option.some_bind, hset]
    set l1 := l.set k (HEntry.mk ek.item v) with hl1
    have hlen1 : l1.length = l.length := by
      rw [hl1, List.length_set]
    have hl1k : l1[k]? = some (HEntry.mk ek.item v) := by
      rw [hl1, List.getElem?_set, if_pos rfl, if_pos hklt]
    have hl1o : ∀ j : ℕ, j ≠ k → l1[j]? = l[j]? := by
      intro j hj
      rw [hl1, List.getElem?_set, if_neg (fun hc => hj hc.symm)]
    by_cases hv : v < ek.value
    · have hok : MinUpOk l1 k := by
        constructor
        · intro j hj hjne e hej p hpj
          rw [hl1o j hjne] at hej
          by_cases hpjk : parentIdx j = k
          · rw [hpjk, hl1k, Option.mem_some_iff] at hpj
            rw [← hpj]
            have hkval : ek.value ≤ e.value :=
              hheap j hj e hej ek (by rw [hpjk, hek]; rfl)
            exact le_trans hv.le hkval
          · rw [hl1o (parentIdx j) hpjk] at hpj
            exact hheap j hj e hej p hpj
        · intro hkpos j hj hpj e hej p hpj2
          have hjk : j ≠ k := by
            have := parentIdx_lt hj
            omega
          rw [hl1o j hjk] at hej
          have hpkk : parentIdx k ≠ k := by
            have := parentIdx_lt hkpos
            omega
          rw [hl1o (parentIdx k) hpkk] at hpj2
          have h1 : p.value ≤ ek.value := hheap k hkpos ek hek p hpj2
          have h2 : ek.value ≤ e.value :=
            hheap j hj e hej ek (by rw [hpj, hek]; rfl)
          exact le_trans h1 h2
      obtain ⟨l2, hgo, hlen2, hh2⟩ := minHeapifyUpGo_correct (k + 1) l1 k
        (by rw [hlen1]; exact hklt) (le_refl _) hok
      refine ⟨l2, ?_, by rw [hlen2, hlen1], hh2⟩
      rw [hcall, if_pos hv, hik]
      unfold minHeapifyUp
      rw [Int.natAbs_ofNat]
      exact hgo
    · have hvk : ek.value ≤ v := not_lt.1 hv
      have hok : MinDownOk l1 k := by
        constructor
        · intro j hj hpjk e hej q hqj
          rw [hl1o (parentIdx j) hpjk] at hqj
          by_cases hjk : j = k
          · rw [hjk, hl1k, Option.mem_some_iff] at hej
            rw [← hej]
            refine le_trans (hheap j hj ek ?_ q hqj) hvk
            rw [hjk, hek]
            rfl
          · rw [hl1o j hjk] at hej
            exact hheap j hj e hej q hqj
        · intro hkpos j hj hpj e hej q hqj
          have hjk : j ≠ k := by
            have := parentIdx_lt hj
            omega
          rw [hl1o j hjk] at hej
          have hpkk : parentIdx k ≠ k := by
            have := parentIdx_lt hkpos
            omega
          rw [hl1o (parentIdx k) hpkk] at hqj
          have h1 : q.value ≤ ek.value := hheap k hkpos ek hek q hqj
          have h2 : ek.value ≤ e.value :=
            hheap j hj e hej ek (by rw [hpj, hek]; rfl)
          exact le_trans h1 h2
      obtain ⟨l2, hgo, hlen2, hh2⟩ := minHeapifyDownGo_correct
        (l1.length + k + 2) l1 k (by rw [hlen1]; exact hklt) (by omega) hok
      refine ⟨l2, ?_, by rw [hlen2, hlen1], hh2⟩
      rw [hcall, if_neg hv, hik]
      unfold minHeapifyDown
      rw [Int.natAbs_ofNat]
      exact hgo

/-- Folding well-indexed operations over a min-heap state keeps the
invariant. -/
theorem minFoldOps_heap {α β : Type} [LinearOrder β] :
    ∀ (ops : List (HeapOp α β)) (l : List (HEntry α β)), IsMinHeap l →
      (∀ op ∈ ops, opIdxOk op = true) →
      ∀ l2 ∈ ops.foldlM minApplyOp l, IsMinHeap l2 := by
  intro ops
  induction ops with
  | nil =>
    intro l hl _ l2 hl2
    simp only [List.foldlM_nil, Option.pure_def, Option.mem_some_iff] at hl2
    rwa [← hl2]
  | cons op t ih =>
    intro l hl hops l2 hl2
    simp only [List.foldlM_cons, Option.mem_def, Option.bind_eq_bind,
      Option.bind_eq_some] at hl2
    obtain ⟨l1, h1, h2⟩ := hl2
    have hop1 : IsMinHeap l1 := by
      cases op with
      | insert a v =>
        simp only [minApplyOp] at h1
        obtain ⟨l2', he, _, hh⟩ := minInsert_heap hl a v
        have heq : l2' = l1 := Option.some.inj (he.symm.trans h1)
        exact heq ▸ hh
      | pop =>
        simp only [minApplyOp] at h1
        obtain ⟨r, l2', hpe, hh⟩ := minPop_heap hl
        rw [hpe, Option.map_some'] at h1
        have heq : l2' = l1 := Option.some.inj h1
        exact heq ▸ hh
      | change_key i v =>
        simp only [minApplyOp] at h1
        have hnn : 0 ≤ i := by
          have := hops (HeapOp.change_key i v) (List.mem_cons_self _ _)
          simp only [opIdxOk] at this
          exact of_decide_eq_true this
        obtain ⟨l2', he, _, hh⟩ := minChangeKey_heap hl i hnn v
        have heq : l2' = l1 := Option.some.inj (he.symm.trans h1)
        exact heq ▸ hh
    exact ih l1 hop1 (fun op' h => hops op' (List.mem_cons_of_mem _ h)) l2 h2

end MinHeapOps


section MaxHeapCorrect

/-- `_heapify_up` (MaxHeap) from an almost-heap state reaches a heap state,
succeeds, and preserves length, given fuel `> k`. -/
theorem maxHeapifyUpGo_correct {α β : Type} [LinearOrder β] :
    ∀ (fuel : ℕ) (l : List (HEntry α β)) (k : ℕ), k < l.length → k + 1 ≤ fuel →
      MaxUpOk l k →
      ∃ l2, maxHeapifyUpGo fuel l (k : ℤ) = some l2 ∧ l2.length = l.length ∧
        IsMaxHeap l2 := by
  intro fuel
  induction fuel with
  | zero => intro l k _ hf; omega
  | succ n ih =>
    intro l k hk hf hok
    have hne : l ≠ [] := List.ne_nil_of_length_pos (by omega)
    by_cases hk0 : k = 0
    · subst hk0
      refine ⟨l, ?_, rfl, ?_⟩
      · simp only [maxHeapifyUpGo, Nat.cast_zero, getParentIndex_zero]
      · intro j hj e hej p hpj
        exact hok.1 j hj (by omega) e hej p hpj
    · have hkpos : 0 < k := Nat.pos_of_ne_zero hk0
      have hplt : parentIdx k < k := parentIdx_lt hkpos
      have hp : parentIdx k < l.length := hplt.trans hk
      obtain ⟨ep, hep⟩ : ∃ x, l[parentIdx k]? = some x :=
        ⟨_, List.getElem?_eq_getElem hp⟩
      obtain ⟨ei, hei⟩ : ∃ x, l[k]? = some x := ⟨_, List.getElem?_eq_getElem hk⟩
      by_cases hle : ei.value ≤ ep.value
      · have hcall : maxHeapifyUpGo (n + 1) l (k : ℤ) = some l := by
          simp only [maxHeapifyUpGo, getParentIndex_natCast l k hne hkpos,
            pyGet_natCast, hep, hei, Option.bind_eq_bind, Option.some_bind,
            hle, if_true]
        refine ⟨l, hcall, rfl, ?_⟩
        intro j hj e hej p hpj
        by_cases hjk : j = k
        · subst hjk
          rw [hei, Option.mem_some_iff] at hej
          rw [hep, Option.mem_some_iff] at hpj
          rw [← hej, ← hpj]
          exact hle
        · exact hok.1 j hj hjk e hej p hpj
      · have hlt : ep.value < ei.value := lt_of_not_le hle
        obtain ⟨l1, hsw, hlen, hswp, hswk, hswo⟩ := pySwap_natCast hp hk
        have hcall : maxHeapifyUpGo (n + 1) l (k : ℤ) =
            maxHeapifyUpGo n l1 ((parentIdx k : ℕ) : ℤ) := by
          simp only [maxHeapifyUpGo, getParentIndex_natCast l k hne hkpos,
            pyGet_natCast, hep, hei, Option.bind_eq_bind, Option.some_bind,
            hle, if_false, hlt, if_true, hsw]
        have hok1 : MaxUpOk l1 (parentIdx k) := by
          constructor
          · intro j hj hjp e hej q hqj
            by_cases hjk : j = k
            · subst hjk
              rw [hswk, hep, Option.mem_some_iff] at hej
              rw [hswp, hei, Option.mem_some_iff] at hqj
              rw [← hej, ← hqj]
              exact hlt.le
            · rw [hswo j hjp hjk] at hej
              by_cases hpjk : parentIdx j = k
              · rw [hpjk, hswk, hep, Option.mem_some_iff] at hqj
                rw [← hqj]
                exact hok.2 hkpos j hj hpjk e hej ep hep
              · by_cases hpjp : parentIdx j = parentIdx k
                · rw [hpjp, hswp, hei, Option.mem_some_iff] at hqj
                  rw [← hqj]
                  refine le_trans ?_ hlt.le
                  exact hok.1 j hj hjk e hej ep (by rw [← hpjp] at hep; exact hep)
                · rw [hswo (parentIdx j) hpjp hpjk] at hqj
                  exact hok.1 j hj hjk e hej q hqj
          · intro hppos j hj hpj e hej q hqj
            have hpplt : parentIdx (parentIdx k) < parentIdx k := parentIdx_lt hppos
            have hppk : parentIdx (parentIdx k) ≠ parentIdx k := by omega
            have hppk2 : parentIdx (parentIdx k) ≠ k := by omega
            rw [hswo (parentIdx (parentIdx k)) hppk hppk2] at hqj
            by_cases hjk : j = k
            · rw [hjk] at hej
              rw [hswk, hep, Option.mem_some_iff] at hej
              rw [← hej]
              exact hok.1 (parentIdx k) hppos (by omega) ep hep q hqj
            · have hjp : j ≠ parentIdx k := by
                have := parentIdx_lt hj
                omega
              rw [hswo j hjp hjk] at hej
              have h1 := hok.1 j hj hjk e hej ep (by rw [hpj]; exact hep)
              have h2 := hok.1 (parentIdx k) hppos (by omega) ep hep q hqj
              exact le_trans h1 h2
        obtain ⟨l2, hrec, hlen2, hheap⟩ := ih l1 (parentIdx k)
          (by rw [hlen]; exact hp) (by omega) hok1
        exact ⟨l2, by rw [hcall]; exact hrec, by rw [hlen2, hlen], hheap⟩

/-- Characterization of one selection step of `_heapify_down` (MaxHeap): it
succeeds, returns `best` or the candidate, and the selected cell is no
smaller than either. -/
theorem maxPickLarger_spec {α β : Type} [LinearOrder β] (l : List (HEntry α β))
    (c : Option ℤ) (best : ℕ) (hb : best < l.length)
    (hc : ∀ x, c = some x → ∃ m : ℕ, x = (m : ℤ) ∧ m < l.length ∧ m ≠ 0) :
    ∃ s : ℕ, maxPickLarger l c best = some (s : ℤ) ∧ s < l.length ∧
      (s = best ∨ c = some (s : ℤ)) ∧
      (∀ e ∈ l[s]?, ∀ a ∈ l[best]?, a.value ≤ e.value) ∧
      (∀ m : ℕ, c = some ((m : ℕ) : ℤ) → m < l.length →
        ∀ e ∈ l[s]?, ∀ a ∈ l[m]?, a.value ≤ e.value) := by
  cases c with
  | none =>
    refine ⟨best, by unfold maxPickLarger; rw [if_neg (by simp [intTruthy])]; rfl,
      hb, Or.inl rfl, ?_, ?_⟩
    · intro e he a ha
      obtain ⟨x, hx⟩ : ∃ x, l[best]? = some x := ⟨_, List.getElem?_eq_getElem hb⟩
      rw [mem_getElem?_eq hx he, mem_getElem?_eq hx ha]
    · intro m hm
      exact absurd hm (by simp)
  | some x =>
    obtain ⟨m, rfl, hmlen, hm0⟩ := hc x rfl
    have htr : intTruthy (some ((m : ℕ) : ℤ)) = true := by
      simp only [intTruthy, bne_iff_ne, ne_eq]
      exact_mod_cast hm0
    obtain ⟨ec, hec⟩ : ∃ y, l[m]? = some y := ⟨_, List.getElem?_eq_getElem hmlen⟩
    obtain ⟨eb, heb⟩ : ∃ y, l[best]? = some y := ⟨_, List.getElem?_eq_getElem hb⟩
    by_cases hlt : eb.value < ec.value
    · have hcall : maxPickLarger l (some ((m : ℕ) : ℤ)) best = some ((m : ℕ) : ℤ) := by
        unfold maxPickLarger
        rw [if_pos htr]
        simp only [Option.getD_some, Option.bind_eq_bind, pyGet_natCast, hec, heb,
          Option.some_bind, hlt, if_true]
        rfl
      refine ⟨m, hcall, hmlen, Or.inr rfl, ?_, ?_⟩
      · intro e he a ha
        rw [mem_getElem?_eq hec he, mem_getElem?_eq heb ha]
        exact hlt.le
      · intro m2 hm2 _ e he a ha
        have hm2m : m2 = m := by exact_mod_cast Option.some.inj hm2.symm
        subst hm2m
        rw [mem_getElem?_eq hec he, mem_getElem?_eq hec ha]
    · have hcall : maxPickLarger l (some ((m : ℕ) : ℤ)) best = some ((best : ℕ) : ℤ) := by
        unfold maxPickLarger
        rw [if_pos htr]
        simp only [Option.getD_some, Option.bind_eq_bind, pyGet_natCast, hec, heb,
          Option.some_bind, hlt, if_false]
        rfl
      refine ⟨best, hcall, hb, Or.inl rfl, ?_, ?_⟩
      · intro e he a ha
        rw [mem_getElem?_eq heb he, mem_getElem?_eq heb ha]
      · intro m2 hm2 _ e he a ha
        have hm2m : m2 = m := by exact_mod_cast Option.some.inj hm2.symm
        subst hm2m
        rw [mem_getElem?_eq heb he, mem_getElem?_eq hec ha]
        exact not_lt.1 hlt

/-- `_heapify_down` (MaxHeap) from an almost-heap state reaches a heap
state, succeeds, and preserves length, given fuel `≥ len - k`. -/
theorem maxHeapifyDownGo_correct {α β : Type} [LinearOrder β] :
    ∀ (fuel : ℕ) (l : List (HEntry α β)) (k : ℕ), k < l.length →
      l.length ≤ fuel + k → MaxDownOk l k →
      ∃ l2, maxHeapifyDownGo fuel l (k : ℤ) = some l2 ∧ l2.length = l.length ∧
        IsMaxHeap l2 := by
  intro fuel
  induction fuel with
  | zero => intro l k hk hf; omega
  | succ n ih =>
    intro l k hk hf hok
    have hne : l ≠ [] := List.ne_nil_of_length_pos (by omega)
    have hjlen : ∀ (j : ℕ) (e : HEntry α β), e ∈ l[j]? → j < l.length := by
      intro j e he
      by_contra hc
      rw [List.getElem?_eq_none (by omega)] at he
      exact absurd he (by simp)
    by_cases hguard : ¬ intTruthy (getLeftIndex l (k : ℤ)) = true ∧
        ¬ intTruthy (getRightIndex l (k : ℤ)) = true
    · have hcall : maxHeapifyDownGo (n + 1) l (k : ℤ) = some l := by
        rw [maxHeapifyDownGo, if_pos hguard]
      refine ⟨l, hcall, rfl, ?_⟩
      intro j hj e hej q hqj
      by_cases hpjk : parentIdx j = k
      · exfalso
        have hjl : j < l.length := hjlen j e hej
        have hLlt : 2 * k + 1 < l.length := by
          unfold parentIdx at hpjk
          omega
        exact hguard.1 ((left_truthy l k hne).2 hLlt)
      · exact hok.1 j hj hpjk e hej q hqj
    · have hL : 2 * k + 1 < l.length := by
        rcases not_and_or.1 hguard with h | h
        · have := not_not.1 (fun hc => h (fun hcc => hc hcc))
          exact (left_truthy l k hne).1 (by revert this; simp)
        · have := not_not.1 (fun hc => h (fun hcc => hc hcc))
          have h2 := (right_truthy l k hne).1 (by revert this; simp)
          omega
      have hcL : getLeftIndex l (k : ℤ) = some ((2 * k + 1 : ℕ) : ℤ) :=
        getLeftIndex_eq l k hne hL
      obtain ⟨s1, hs1eq, hs1len, hs1or, hs1b, hs1c⟩ :=
        maxPickLarger_spec l (getLeftIndex l (k : ℤ)) k hk
          (fun x hx => ⟨2 * k + 1, (getLeftIndex_some hx).1, (getLeftIndex_some hx).2,
            by omega⟩)
      obtain ⟨s2, hs2eq, hs2len, hs2or, hs2b, hs2c⟩ :=
        maxPickLarger_spec l (getRightIndex l (k : ℤ)) s1 hs1len
          (fun x hx => ⟨2 * k + 2, (getRightIndex_some hx).1, (getRightIndex_some hx).2,
            by omega⟩)
      have hs1val : s1 = k ∨ s1 = 2 * k + 1 := by
        rcases hs1or with h | h
        · exact Or.inl h
        · rw [hcL] at h
          have h2 : ((2 * k + 1 : ℕ) : ℤ) = ((s1 : ℕ) : ℤ) := Option.some.inj h
          exact Or.inr (by exact_mod_cast h2.symm)
      have hs2val : s2 = s1 ∨ s2 = 2 * k + 2 := by
        rcases hs2or with h | h
        · exact Or.inl h
        · obtain ⟨hx, _⟩ := getRightIndex_some h
          exact Or.inr (by exact_mod_cast hx)
      -- the chain: l[k] ≤ l[s2], l[2k+1] ≤ l[s2], and (right in range) l[2k+2] ≤ l[s2]
      obtain ⟨ek, hek⟩ : ∃ y, l[k]? = some y := ⟨_, List.getElem?_eq_getElem hk⟩
      obtain ⟨e1, he1⟩ : ∃ y, l[s1]? = some y := ⟨_, List.getElem?_eq_getElem hs1len⟩
      obtain ⟨e2, he2⟩ : ∃ y, l[s2]? = some y := ⟨_, List.getElem?_eq_getElem hs2len⟩
      have h21 : e1.value ≤ e2.value := by
        have := hs2b e2 (by rw [he2]; rfl) e1 (by rw [he1]; rfl)
        exact this
      have h1k : ek.value ≤ e1.value := by
        have := hs1b e1 (by rw [he1]; rfl) ek (by rw [hek]; rfl)
        exact this
      have h2k : ek.value ≤ e2.value := le_trans h1k h21
      have hs2L : ∀ eL ∈ l[2 * k + 1]?, eL.value ≤ e2.value := by
        intro eL heL
        have hbound := hs1c (2 * k + 1) hcL hL e1 (by rw [he1]; rfl) eL heL
        exact le_trans hbound h21
      have hs2R : 2 * k + 2 < l.length → ∀ eR ∈ l[2 * k + 2]?,
          eR.value ≤ e2.value := by
        intro hRlen eR heR
        have hcR : getRightIndex l (k : ℤ) = some ((2 * k + 2 : ℕ) : ℤ) :=
          getRightIndex_eq l k hne hRlen
        exact hs2c (2 * k + 2) hcR hRlen e2 (by rw [he2]; rfl) eR heR
      by_cases hs2k : s2 = k
      · have hcall : maxHeapifyDownGo (n + 1) l (k : ℤ) = some l := by
          rw [maxHeapifyDownGo, if_neg hguard]
          simp only [Option.bind_eq_bind, hs1eq, Option.some_bind, hs2eq]
          rw [if_neg (by exact_mod_cast not_not_intro hs2k)]
        refine ⟨l, hcall, rfl, ?_⟩
        intro j hj e hej q hqj
        by_cases hpjk : parentIdx j = k
        · have hjl : j < l.length := hjlen j e hej
          have hq : q = ek := mem_getElem?_eq (by rw [hpjk] at hqj ⊢; exact hek) hqj
          have hjval : j = 2 * k + 1 ∨ j = 2 * k + 2 := by
            unfold parentIdx at hpjk
            omega
          have hs2ek : e2.value = ek.value := by
            rw [hs2k] at he2
            rw [mem_getElem?_eq hek (by rw [he2]; rfl : e2 ∈ l[k]?)]
          rcases hjval with rfl | rfl
          · rw [hq]
            rw [← hs2ek]
            exact hs2L e hej
          · rw [hq]
            rw [← hs2ek]
            exact hs2R hjl e hej
        · exact hok.1 j hj hpjk e hej q hqj
      · -- swap with the larger child s2 and recurse there
        have hks2 : k < s2 := by
          rcases hs2val with h | h
          · rcases hs1val with h1 | h1
            · exact absurd (h.trans h1) hs2k
            · omega
          · omega
        obtain ⟨l1, hsw, hlen, hswk, hsws2, hswo⟩ := pySwap_natCast hk hs2len
        have hcall : maxHeapifyDownGo (n + 1) l (k : ℤ) =
            maxHeapifyDownGo n l1 ((s2 : ℕ) : ℤ) := by
          rw [maxHeapifyDownGo, if_neg hguard]
          simp only [Option.bind_eq_bind, hs1eq, Option.some_bind, hs2eq]
          rw [if_pos (by exact_mod_cast fun hc => hs2k (by exact_mod_cast hc))]
          simp only [hsw, Option.some_bind]
        have hps2 : parentIdx s2 = k := by
          unfold parentIdx
          rcases hs2val with h | h
          · rcases hs1val with h1 | h1
            · exact absurd (h.trans h1) hs2k
            · omega
          · omega
        have hok1 : MaxDownOk l1 s2 := by
          constructor
          · intro j hj hpjs2 e hej q hqj
            by_cases hjk : j = k
            · subst hjk
              rw [hswk, he2, Option.mem_some_iff] at hej
              have hpjne : parentIdx j ≠ j := by
                have := parentIdx_lt hj
                omega
              have hpjs : parentIdx j ≠ s2 := by omega
              rw [hswo (parentIdx j) (by have := parentIdx_lt hj; omega) hpjs] at hqj
              rw [← hej]
              exact hok.2 hj s2 (by omega) hps2 e2 he2 q hqj
            · by_cases hjs2 : j = s2
              · subst hjs2
                rw [hsws2, hek, Option.mem_some_iff] at hej
                rw [hps2, hswk, he2, Option.mem_some_iff] at hqj
                rw [← hej, ← hqj]
                exact h2k
              · rw [hswo j hjk hjs2] at hej
                by_cases hpjk : parentIdx j = k
                · have hjl : j < l.length := hjlen j e hej
                  have hjval : j = 2 * k + 1 ∨ j = 2 * k + 2 := by
                    unfold parentIdx at hpjk
                    omega
                  rw [hpjk, hswk, he2, Option.mem_some_iff] at hqj
                  rw [← hqj]
                  rcases hjval with rfl | rfl
                  · exact hs2L e hej
                  · exact hs2R hjl e hej
                · rw [hswo (parentIdx j) hpjk hpjs2] at hqj
                  exact hok.1 j hj hpjk e hej q hqj
          · intro hs2pos j hj hpjs2 e hej q hqj
            have hjgt : s2 < j := by
              have := parentIdx_lt hj
              omega
            have hjk : j ≠ k := by omega
            have hjs2 : j ≠ s2 := by omega
            rw [hswo j hjk hjs2] at hej
            rw [hps2, hswk, he2, Option.mem_some_iff] at hqj
            rw [← hqj]
            have := hok.1 j hj (by rw [hpjs2]; exact hs2k) e hej
            rw [hpjs2, he2] at this
            exact this e2 rfl
        obtain ⟨l2, hrec, hlen2, hheap⟩ := ih l1 s2 (by rw [hlen]; exact hs2len)
          (by omega) hok1
        exact ⟨l2, by rw [hcall]; exact hrec, by rw [hlen2, hlen], hheap⟩

end MaxHeapCorrect


section MaxHeapOps

/-- The empty backing list is a max-heap. -/
theorem isMaxHeap_nil {α β : Type} [LinearOrder β] :
    IsMaxHeap ([] : List (HEntry α β)) := by
  intro i hi e he
  simp at he

/-- `insert` (MaxHeap) succeeds, grows the list by one, and preserves the
heap invariant. -/
theorem maxInsert_heap {α β : Type} [LinearOrder β] {l : List (HEntry α β)}
    (hheap : IsMaxHeap l) (a : α) (v : β) :
    ∃ l2, maxInsert l a v = some l2 ∧ l2.length = l.length + 1 ∧
      IsMaxHeap l2 := by
  have hlen1 : (l ++ [HEntry.mk a v]).length = l.length + 1 := by simp
  have hok : MaxUpOk (l ++ [HEntry.mk a v]) l.length := by
    constructor
    · intro j hj hjne e hej p hpj
      by_cases hjlt : j < l.length
      · rw [List.getElem?_append_left hjlt] at hej
        rw [List.getElem?_append_left ((parentIdx_lt hj).trans hjlt)] at hpj
        exact hheap j hj e hej p hpj
      · rw [List.getElem?_eq_none (by rw [hlen1]; omega)] at hej
        exact absurd hej (Option.not_mem_none e)
    · intro hpos j hj hpj e hej p hpj2
      have hjbig : l.length + 1 ≤ j := by
        unfold parentIdx at hpj
        omega
      rw [List.getElem?_eq_none (by rw [hlen1]; omega)] at hej
      exact absurd hej (Option.not_mem_none e)
  obtain ⟨l2, hgo, hlen2, hheap2⟩ := maxHeapifyUpGo_correct (l.length + 1)
    (l ++ [HEntry.mk a v]) l.length (by rw [hlen1]; omega) (le_refl _) hok
  refine ⟨l2, ?_, by rw [hlen2, hlen1], hheap2⟩
  have hidx : ((l ++ [HEntry.mk a v]).length : ℤ) - 1 = ((l.length : ℕ) : ℤ) := by
    rw [hlen1]
    push_cast
    ring
  simp only [maxInsert, maxHeapifyUp]
  rw [hidx, Int.natAbs_ofNat]
  exact hgo

/-- `pop` (MaxHeap) succeeds and preserves the heap invariant. -/
theorem maxPop_heap {α β : Type} [LinearOrder β] {l : List (HEntry α β)}
    (hheap : IsMaxHeap l) :
    ∃ r l2, maxPop l = some (r, l2) ∧ IsMaxHeap l2 := by
  cases l with
  | nil => exact ⟨none, [], rfl, isMaxHeap_nil⟩
  | cons a t =>
    cases t with
    | nil => exact ⟨some a, [], rfl, isMaxHeap_nil⟩
    | cons b t2 =>
      have hdll : ((a :: b :: t2).dropLast).length = t2.length + 1 := by
        rw [List.length_dropLast]
        simp
      have hdl : ∀ j : ℕ, j < ((a :: b :: t2).dropLast).length →
          ((a :: b :: t2).dropLast)[j]? = (a :: b :: t2)[j]? := by
        intro j hj
        rw [List.getElem?_eq_getElem hj,
          List.getElem?_eq_getElem (by rw [List.length_dropLast] at hj; omega),
          List.getElem_dropLast]
      set l1 := ((a :: b :: t2).dropLast).set 0
        ((a :: b :: t2).getLast (List.cons_ne_nil a (b :: t2))) with hl1
      have hlen1 : l1.length = t2.length + 1 := by
        rw [hl1, List.length_set, hdll]
      have hl1get : ∀ j : ℕ, 0 < j →
          l1[j]? = (a :: b :: t2)[j]? ∨ l1[j]? = none := by
        intro j hj
        rw [hl1, List.getElem?_set, if_neg (by omega)]
        by_cases hjlt : j < ((a :: b :: t2).dropLast).length
        · exact Or.inl (hdl j hjlt)
        · exact Or.inr (List.getElem?_eq_none (by omega))
      have hok : MaxDownOk l1 0 := by
        constructor
        · intro j hj hpj0 e hej q hqj
          rcases hl1get j hj with hje | hje
          · rw [hje] at hej
            rcases hl1get (parentIdx j) (Nat.pos_of_ne_zero hpj0) with hpe | hpe
            · rw [hpe] at hqj
              exact hheap j hj e hej q hqj
            · rw [hpe] at hqj
              exact absurd hqj (Option.not_mem_none q)
          · rw [hje] at hej
            exact absurd hej (Option.not_mem_none e)
        · intro h0
          exact absurd h0 (lt_irrefl 0)
      obtain ⟨l2, hgo, hlen2, hheap2⟩ := maxHeapifyDownGo_correct
        (l1.length + 2) l1 0 (by omega) (by omega) hok
      simp only [Nat.cast_zero] at hgo
      have hwrap : maxHeapifyDown l1 (0 : ℤ) =
          maxHeapifyDownGo (l1.length + 2) l1 (0 : ℤ) := by
        simp [maxHeapifyDown]
      refine ⟨some a, l2, ?_, hheap2⟩
      have hpop : maxPop (a :: b :: t2) =
          (maxHeapifyDown l1 (0 : ℤ)).map (fun x => (some a, x)) := rfl
      rw [hpop, hwrap, hgo]
      rfl

/-- `change_key` with a nonnegative index (MaxHeap) succeeds, preserves the
length, and preserves the heap invariant. -/
theorem maxChangeKey_heap {α β : Type} [LinearOrder β] {l : List (HEntry α β)}
    (hheap : IsMaxHeap l) (i : ℤ) (hi : 0 ≤ i) (v : β) :
    ∃ l2, maxChangeKey l i v = some l2 ∧ l2.length = l.length ∧
      IsMaxHeap l2 := by
  by_cases hguard : l.isEmpty ∨ (l.length : ℤ) ≤ i
  · refine ⟨l, ?_, rfl, hheap⟩
    unfold maxChangeKey
    rw [if_pos hguard]
  · have hg2 := hguard
    push_neg at hg2
    obtain ⟨hne', hilt⟩ := hg2
    have hne : l ≠ [] := by simpa using hne'
    have hik : i = ((i.toNat : ℕ) : ℤ) := (Int.toNat_of_nonneg hi).symm
    set k := i.toNat with hk
    have hklt : k < l.length := by omega
    obtain ⟨ek, hek⟩ : ∃ x, l[k]? = some x := ⟨_, List.getElem?_eq_getElem hklt⟩
    have hget : pyGet l i = some ek := by
      rw [hik, pyGet_natCast]
      exact hek
    have hset : pySet l i (HEntry.mk ek.item v) =
        some (l.set k (HEntry.mk ek.item v)) := by
      rw [hik]
      unfold pySet pyIdx
      rw [if_pos (by positivity), if_pos (by exact_mod_cast hklt)]
      simp
    have hcall : maxChangeKey l i v =
        (if ek.value < v then maxHeapifyUp (l.set k (HEntry.mk ek.item v)) i
         else maxHeapifyDown (l.set k (HEntry.mk ek.item v)) i) := by
      unfold maxChangeKey
      rw [if_neg hguard]
      simp only [hget, Option.bind_eq_bind, Option.some_bind, hset]
    set l1 := l.set k (HEntry.mk ek.item v) with hl1
    have hlen1 : l1.length = l.length := by
      rw [hl1, List.length_set]
    have hl1k : l1[k]? = some (HEntry.mk ek.item v) := by
      rw [hl1, List.getElem?_set, if_pos rfl, if_pos hklt]
    have hl1o : ∀ j : ℕ, j ≠ k → l1[j]? = l[j]? := by
      intro j hj
      rw [hl1, List.getElem?_set, if_neg (fun hc => hj hc.symm)]
    by_cases hv : ek.value < v
    · have hok : MaxUpOk l1 k := by
        constructor
        · intro j hj hjne e hej p hpj
          rw [hl1o j hjne] at hej
          by_cases hpjk : parentIdx j = k
          · rw [hpjk, hl1k, Option.mem_some_iff] at hpj
            rw [← hpj]
            have hkval : e.value ≤ ek.value :=
              hheap j hj e hej ek (by rw [hpjk, hek]; rfl)
            exact le_trans hkval hv.le
          · rw [hl1o (parentIdx j) hpjk] at hpj
            exact hheap j hj e hej p hpj
        · intro hkpos j hj hpj e hej p hpj2
          have hjk : j ≠ k := by
            have := parentIdx_lt hj
            omega
          rw [hl1o j hjk] at hej
          have hpkk : parentIdx k ≠ k := by
            have := parentIdx_lt hkpos
            omega
          rw [hl1o (parentIdx k) hpkk] at hpj2
          have h1 : ek.value ≤ p.value := hheap k hkpos ek hek p hpj2
          have h2 : e.value ≤ ek.value :=
            hheap j hj e hej ek (by rw [hpj, hek]; rfl)
          exact le_trans h2 h1
      obtain ⟨l2, hgo, hlen2, hh2⟩ := maxHeapifyUpGo_correct (k + 1) l1 k
        (by rw [hlen1]; exact hklt) (le_refl _) hok
      refine ⟨l2, ?_, by rw [hlen2, hlen1], hh2⟩
      rw [hcall, if_pos hv, hik]
      unfold maxHeapifyUp
      rw [Int.natAbs_ofNat]
      exact hgo
    · have hvk : v ≤ ek.value := not_lt.1 hv
      have hok : MaxDownOk l1 k := by
        constructor
        · intro j hj hpjk e hej q hqj
          rw [hl1o (parentIdx j) hpjk] at hqj
          by_cases hjk : j = k
          · rw [hjk, hl1k, Option.mem_some_iff] at hej
            rw [← hej]
            refine le_trans hvk (hheap j hj ek ?_ q hqj)
            rw [hjk, hek]
            rfl
          · rw [hl1o j hjk] at hej
            exact hheap j hj e hej q hqj
        · intro hkpos j hj hpj e hej q hqj
          have hjk : j ≠ k := by
            have := parentIdx_lt hj
            omega
          rw [hl1o j hjk] at hej
          have hpkk : parentIdx k ≠ k := by
            have := parentIdx_lt hkpos
            omega
          rw [hl1o (parentIdx k) hpkk] at hqj
          have h1 : ek.value ≤ q.value := hheap k hkpos ek hek q hqj
          have h2 : e.value ≤ ek.value :=
            hheap j hj e hej ek (by rw [hpj, hek]; rfl)
          exact le_trans h2 h1
      obtain ⟨l2, hgo, hlen2, hh2⟩ := maxHeapifyDownGo_correct
        (l1.length + k + 2) l1 k (by rw [hlen1]; exact hklt) (by omega) hok
      refine ⟨l2, ?_, by rw [hlen2, hlen1], hh2⟩
      rw [hcall, if_neg hv, hik]
      unfold maxHeapifyDown
      rw [Int.natAbs_ofNat]
      exact hgo

/-- Folding well-indexed operations over a max-heap state keeps the
invariant. -/
theorem maxFoldOps_heap {α β : Type} [LinearOrder β] :
    ∀ (ops : List (HeapOp α β)) (l : List (HEntry α β)), IsMaxHeap l →
      (∀ op ∈ ops, opIdxOk op = true) →
      ∀ l2 ∈ ops.foldlM maxApplyOp l, IsMaxHeap l2 := by
  intro ops
  induction ops with
  | nil =>
    intro l hl _ l2 hl2
    simp only [List.foldlM_nil, Option.pure_def, Option.mem_some_iff] at hl2
    rwa [← hl2]
  | cons op t ih =>
    intro l hl hops l2 hl2
    simp only [List.foldlM_cons, Option.mem_def, Option.bind_eq_bind,
      Option.bind_eq_some] at hl2
    obtain ⟨l1, h1, h2⟩ := hl2
    have hop1 : IsMaxHeap l1 := by
      cases op with
      | insert a v =>
        simp only [maxApplyOp] at h1
        obtain ⟨l2', he, _, hh⟩ := maxInsert_heap hl a v
        have heq : l2' = l1 := Option.some.inj (he.symm.trans h1)
        exact heq ▸ hh
      | pop =>
        simp only [maxApplyOp] at h1
        obtain ⟨r, l2', hpe, hh⟩ := maxPop_heap hl
        rw [hpe, Option.map_some'] at h1
        have heq : l2' = l1 := Option.some.inj h1
        exact heq ▸ hh
      | change_key i v =>
        simp only [maxApplyOp] at h1
        have hnn : 0 ≤ i := by
          have := hops (HeapOp.change_key i v) (List.mem_cons_self _ _)
          simp only [opIdxOk] at this
          exact of_decide_eq_true this
        obtain ⟨l2', he, _, hh⟩ := maxChangeKey_heap hl i hnn v
        have heq : l2' = l1 := Option.some.inj (he.symm.trans h1)
        exact heq ▸ hh
    exact ih l1 hop1 (fun op' h => hops op' (List.mem_cons_of_mem _ h)) l2 h2

end MaxHeapOps


section ClaimC2

/-- Claim C2 (amended): for every finite sequence of `insert`, `pop` and
`change_key` operations applied to an initially empty `MinHeap`
(respectively `MaxHeap`) in which every `change_key` index is nonnegative,
the resulting backing array satisfies the heap ordering: the value at every
non-root index is no smaller (respectively no larger) than the value at its
parent index `(i-1)//2`.  (The original claim, over all operation
sequences, is refuted by `C2_counterexample`: a `change_key` with a negative
in-range index updates the addressed cell but restores order starting from
the negative index, which compares the cell with itself and returns.) -/
theorem C2_heap_invariant {α β : Type} [LinearOrder β]
    (ops : List (HeapOp α β)) (hops : ops.all opIdxOk = true) :
    (∀ l ∈ minRunOps ops, IsMinHeap l) ∧ (∀ l ∈ maxRunOps ops, IsMaxHeap l) := by
  rw [List.all_eq_true] at hops
  exact ⟨minFoldOps_heap ops [] isMinHeap_nil hops,
    maxFoldOps_heap ops [] isMaxHeap_nil hops⟩

/-- Witness for C2 on the concrete sequence `c2ops`. -/
theorem C2_heap_invariant_witness :
    c2ops.all opIdxOk = true ∧
      ((∀ l ∈ minRunOps c2ops, IsMinHeap l) ∧
        ∀ l ∈ maxRunOps c2ops, IsMaxHeap l) :=
  ⟨by decide, C2_heap_invariant c2ops (by decide)⟩

end ClaimC2


section TraversalOrderLemmas

/-- `pend` distributes over frontier concatenation. -/
theorem pend_append {α : Type} [DecidableEq α] (p : α) (a b : List (Frame α)) :
    pend p (a ++ b) = pend p a ++ pend p b := by
  unfold pend
  rw [List.filter_append, List.map_append]

/-- `pend` at a frame carrying a parent. -/
theorem pend_cons_some {α : Type} [DecidableEq α] (p q nb : α)
    (st : List (Frame α)) :
    pend p ((nb, some q) :: st) = (if q = p then [nb] else []) ++ pend p st := by
  by_cases h : q = p
  · simp [pend, h]
  · simp [pend, h]

/-- `pend` ignores the root frame (parent `None`). -/
theorem pend_cons_none {α : Type} [DecidableEq α] (p nb : α)
    (st : List (Frame α)) :
    pend p ((nb, none) :: st) = pend p st := by
  simp [pend]

/-- `pend` over a block of frames that all carry the same parent. -/
theorem pend_map_frames {α : Type} [DecidableEq α] (p q : α) (nl : List α) :
    pend p (nl.map (fun nb => (nb, some q))) = if q = p then nl else [] := by
  induction nl with
  | nil => by_cases h : q = p <;> simp [pend, h]
  | cons a t ih =>
    rw [List.map_cons, pend_cons_some, ih]
    by_cases h : q = p
    · simp [h]
    · simp [h]

/-- A frontier whose recorded parents are all visited has no frames pending
under an unvisited parent. -/
theorem pend_nil_of_parents_visited {α : Type} [DecidableEq α] {p : α}
    {visited : Finset α} {st : List (Frame α)}
    (hfr : ∀ f ∈ st, ∀ q : α, f.2 = some q → q ∈ visited) (hp : p ∉ visited) :
    pend p st = [] := by
  unfold pend
  have h : st.filter (fun f => f.2 = some p) = [] := by
    rw [List.filter_eq_nil_iff]
    intro f hf hc
    exact hp (hfr f hf p (by simpa using hc))
  rw [h, List.map_nil]

/-- Dropping the head frame only shrinks `pend`. -/
theorem pend_sublist_cons {α : Type} [DecidableEq α] (p : α) (f : Frame α)
    (st : List (Frame α)) : (pend p st).Sublist (pend p (f :: st)) :=
  (((List.sublist_cons_self f st).filter _).map _)

/-- `treeChildren` distributes over edge-list concatenation. -/
theorem treeChildren_append {α : Type} [DecidableEq α] (p : α)
    (t1 t2 : List (α × α)) :
    treeChildren p (t1 ++ t2) = treeChildren p t1 ++ treeChildren p t2 := by
  unfold treeChildren
  rw [List.filter_append, List.map_append]

/-- `treeChildren` of a single edge. -/
theorem treeChildren_single {α : Type} [DecidableEq α] (p q c : α) :
    treeChildren p [(q, c)] = if q = p then [c] else [] := by
  by_cases h : q = p <;> simp [treeChildren, h]

/-- A tree whose recorded parents are all visited has no children recorded
under an unvisited parent. -/
theorem treeChildren_nil_of_parents_visited {α : Type} [DecidableEq α] {p : α}
    {visited : Finset α} {t : List (α × α)}
    (htr : ∀ e ∈ t, e.1 ∈ visited) (hp : p ∉ visited) :
    treeChildren p t = [] := by
  unfold treeChildren
  have h : t.filter (fun e => e.1 = p) = [] := by
    rw [List.filter_eq_nil_iff]
    intro e he hc
    have : e.1 = p := by simpa using hc
    exact hp (this ▸ htr e he)
  rw [h, List.map_nil]

/-- The `dfs` neighbor push-loop prepends the kept neighbors in reverse
order. -/
theorem dfs_push_eq {α : Type} [DecidableEq α] (visited1 : Finset α)
    (node : α) :
    ∀ (nl : List α) (st : List (Frame α)),
      nl.foldl (fun st nb =>
        if nb ∉ visited1 then (nb, some node) :: st else st) st =
      ((nl.filter (fun nb => nb ∉ visited1)).reverse.map
        (fun nb => (nb, some node))) ++ st := by
  intro nl
  induction nl with
  | nil => intro st; simp
  | cons a t ih =>
    intro st
    rw [List.foldl_cons]
    by_cases h : a ∉ visited1
    · rw [if_pos h, ih, List.filter_cons_of_pos (by simpa using h)]
      simp
    · rw [if_neg h, ih, List.filter_cons_of_neg (by simpa using h)]

/-- The `bfs` neighbor push-loop appends the kept neighbors in order. -/
theorem bfs_push_eq {α : Type} [DecidableEq α] (visited1 : Finset α)
    (node : α) :
    ∀ (nl : List α) (q0 : List (Frame α)),
      nl.foldl (fun q nb =>
        if nb ∉ visited1 then q ++ [(nb, some node)] else q) q0 =
      q0 ++ (nl.filter (fun nb => nb ∉ visited1)).map
        (fun nb => (nb, some node)) := by
  intro nl
  induction nl with
  | nil => intro q0; simp
  | cons a t ih =>
    intro q0
    rw [List.foldl_cons]
    by_cases h : a ∉ visited1
    · rw [if_pos h, ih, List.filter_cons_of_pos (by simpa using h)]
      simp
    · rw [if_neg h, ih, List.filter_cons_of_neg (by simpa using h)]

/-- With duplicate-free adjacency, `sorted(..., reverse=True)` is strictly
descending. -/
theorem nbrsDesc_sorted_gt {α : Type} [LinearOrder α] (g : WGraph α) (u : α)
    (hnd : (nbrs g u).Nodup) : (nbrsDesc g u).Sorted (· > ·) :=
  (List.sorted_insertionSort _ _).gt_of_ge
    ((List.perm_insertionSort _ _).nodup_iff.2 hnd)

/-- A node outside the node list has no stored incident edges. -/
theorem nbrs_not_node {α : Type} [DecidableEq α] (g : WGraph α) (u : α)
    (hu : u ∉ g.nodes) : nbrs g u = [] := by
  unfold nbrs
  rw [List.filterMap_eq_nil_iff]
  intro e he
  have h1 : ¬ e.1 = u := fun hc => hu (hc ▸ (g.wf e he).1)
  have h2 : ¬ e.2.1 = u := fun hc => hu (hc ▸ (g.wf e he).2)
  rw [if_neg h1, if_neg h2]

end TraversalOrderLemmas


section TraversalOrderMain

/-- Loop invariant of `dfs`: with every pending frame's parent already
visited, every tree parent visited, and every parent's attached-children
plus pending-children sequence strictly ascending, all yielded snapshots
keep each parent's attached children strictly ascending. -/
theorem dfsLoop_children_sorted {α : Type} [LinearOrder α] (g : WGraph α)
    (hnd : ∀ n, (nbrs g n).Nodup) :
    ∀ (fuel : ℕ) (visited : Finset α) (tree : List (α × α))
      (stack : List (Frame α)),
      (∀ f ∈ stack, ∀ q : α, f.2 = some q → q ∈ visited) →
      (∀ e ∈ tree, e.1 ∈ visited) →
      (∀ p : α, (treeChildren p tree ++ pend p stack).Sorted (· < ·)) →
      ∀ snap ∈ (dfsLoop g fuel visited tree stack).1, ∀ p : α,
        (treeChildren p snap.2).Sorted (· < ·) := by
  intro fuel
  induction fuel with
  | zero =>
    intro visited tree stack _ _ _ snap hsnap
    simp [dfsLoop] at hsnap
  | succ n ih =>
    intro visited tree stack hfr htr hsort snap hsnap
    cases stack with
    | nil => simp [dfsLoop] at hsnap
    | cons f stack =>
      obtain ⟨node, par⟩ := f
      have hfrt : ∀ f ∈ stack, ∀ q : α, f.2 = some q → q ∈ visited :=
        fun f hf => hfr f (List.mem_cons_of_mem _ hf)
      simp only [dfsLoop] at hsnap
      by_cases hv : node ∈ visited
      · rw [if_pos hv] at hsnap
        refine ih visited tree stack hfrt htr (fun p => ?_) snap hsnap
        exact List.Pairwise.sublist
          ((pend_sublist_cons p (node, par) stack).append_left _) (hsort p)
      · rw [if_neg hv] at hsnap
        have hasc : (((nbrsDesc g node).filter
            (fun nb => nb ∉ insert node visited)).reverse).Sorted (· < ·) := by
          have hdesc : ((nbrsDesc g node).filter
              (fun nb => nb ∉ insert node visited)).Sorted (· > ·) :=
            List.Pairwise.sublist (List.filter_sublist _)
              (nbrsDesc_sorted_gt g node (hnd node))
          exact (List.pairwise_reverse).2 hdesc
        cases par with
        | none =>
          have hsnap2 : snap ∈ (insert node visited, tree) ::
              (dfsLoop g n (insert node visited) tree
                ((nbrsDesc g node).foldl (fun st nb =>
                  if nb ∉ insert node visited then (nb, some node) :: st else st)
                  stack)).1 := hsnap
          rw [dfs_push_eq] at hsnap2
          have hfr1 : ∀ f ∈ (((nbrsDesc g node).filter
                (fun nb => nb ∉ insert node visited)).reverse.map
                (fun nb => (nb, some node))) ++ stack,
              ∀ q : α, f.2 = some q → q ∈ insert node visited := by
            intro f hf q hq
            rcases List.mem_append.1 hf with hf | hf
            · obtain ⟨nb, _, rfl⟩ := List.mem_map.1 hf
              exact (Option.some.inj hq) ▸ Finset.mem_insert_self node visited
            · exact Finset.mem_insert_of_mem (hfrt f hf q hq)
          have htr1 : ∀ e ∈ tree, e.1 ∈ insert node visited :=
            fun e he => Finset.mem_insert_of_mem (htr e he)
          have hsort1 : ∀ p : α, (treeChildren p tree ++
              pend p ((((nbrsDesc g node).filter
                (fun nb => nb ∉ insert node visited)).reverse.map
                (fun nb => (nb, some node))) ++ stack)).Sorted (· < ·) := by
            intro p
            rw [pend_append, pend_map_frames]
            by_cases hp : node = p
            · rw [if_pos hp, ← hp]
              rw [treeChildren_nil_of_parents_visited htr hv,
                pend_nil_of_parents_visited hfrt hv, List.nil_append,
                List.append_nil]
              exact hasc
            · rw [if_neg hp, List.nil_append]
              have h := hsort p
              rw [pend_cons_none] at h
              exact h
          rw [List.mem_cons] at hsnap2
          rcases hsnap2 with rfl | hsnap2
          · intro p
            exact List.Pairwise.sublist (List.sublist_append_left _ _) (hsort1 p)
          · exact ih (insert node visited) tree _ hfr1 htr1 hsort1 snap hsnap2
        | some pp =>
          have hpp : pp ∈ visited := hfr (node, some pp) (List.mem_cons_self _ _) pp rfl
          have hppn : ¬ pp = node := fun hc => hv (hc ▸ hpp)
          have hsnap2 : snap ∈ (insert node visited, tree ++ [(pp, node)]) ::
              (dfsLoop g n (insert node visited) (tree ++ [(pp, node)])
                ((nbrsDesc g node).foldl (fun st nb =>
                  if nb ∉ insert node visited then (nb, some node) :: st else st)
                  stack)).1 := hsnap
          rw [dfs_push_eq] at hsnap2
          have hfr1 : ∀ f ∈ (((nbrsDesc g node).filter
                (fun nb => nb ∉ insert node visited)).reverse.map
                (fun nb => (nb, some node))) ++ stack,
              ∀ q : α, f.2 = some q → q ∈ insert node visited := by
            intro f hf q hq
            rcases List.mem_append.1 hf with hf | hf
            · obtain ⟨nb, _, rfl⟩ := List.mem_map.1 hf
              exact (Option.some.inj hq) ▸ Finset.mem_insert_self node visited
            · exact Finset.mem_insert_of_mem (hfrt f hf q hq)
          have htr1 : ∀ e ∈ tree ++ [(pp, node)], e.1 ∈ insert node visited := by
            intro e he
            rcases List.mem_append.1 he with he | he
            · exact Finset.mem_insert_of_mem (htr e he)
            · rw [List.mem_singleton.1 he]
              exact Finset.mem_insert_of_mem hpp
          have hsort1 : ∀ p : α, (treeChildren p (tree ++ [(pp, node)]) ++
              pend p ((((nbrsDesc g node).filter
                (fun nb => nb ∉ insert node visited)).reverse.map
                (fun nb => (nb, some node))) ++ stack)).Sorted (· < ·) := by
            intro p
            rw [treeChildren_append, treeChildren_single, pend_append,
              pend_map_frames]
            by_cases hp : node = p
            · rw [if_pos hp, if_neg (fun hc => hppn (hc.trans hp.symm)), ← hp]
              rw [treeChildren_nil_of_parents_visited htr hv,
                pend_nil_of_parents_visited hfrt hv, List.append_nil,
                List.nil_append, List.append_nil]
              exact hasc
            · rw [if_neg hp, List.nil_append]
              have h := hsort p
              rw [pend_cons_some] at h
              by_cases hq : pp = p
              · rw [if_pos hq] at h ⊢
                rw [List.append_assoc]
                exact h
              · rw [if_neg hq] at h ⊢
                rw [List.append_nil]
                rw [List.nil_append] at h
                exact h
          rw [List.mem_cons] at hsnap2
          rcases hsnap2 with rfl | hsnap2
          · intro p
            exact List.Pairwise.sublist (List.sublist_append_left _ _) (hsort1 p)
          · exact ih (insert node visited) (tree ++ [(pp, node)]) _ hfr1 htr1
              hsort1 snap hsnap2

/-- Loop invariant of `bfs`: as for `dfs`, but the per-parent sequences are
strictly descending, because the queue receives each expanded node's
neighbors in `reverse=True` (descending) order. -/
theorem bfsLoop_children_sorted {α : Type} [LinearOrder α] (g : WGraph α)
    (hnd : ∀ n, (nbrs g n).Nodup) :
    ∀ (fuel : ℕ) (visited : Finset α) (tree : List (α × α))
      (fifo : List (Frame α)),
      (∀ f ∈ fifo, ∀ q : α, f.2 = some q → q ∈ visited) →
      (∀ e ∈ tree, e.1 ∈ visited) →
      (∀ p : α, (treeChildren p tree ++ pend p fifo).Sorted (· > ·)) →
      ∀ snap ∈ (bfsLoop g fuel visited tree fifo).1, ∀ p : α,
        (treeChildren p snap.2).Sorted (· > ·) := by
  intro fuel
  induction fuel with
  | zero =>
    intro visited tree fifo _ _ _ snap hsnap
    simp [bfsLoop] at hsnap
  | succ n ih =>
    intro visited tree fifo hfr htr hsort snap hsnap
    cases fifo with
    | nil => simp [bfsLoop] at hsnap
    | cons f fifo =>
      obtain ⟨node, par⟩ := f
      have hfrt : ∀ f ∈ fifo, ∀ q : α, f.2 = some q → q ∈ visited :=
        fun f hf => hfr f (List.mem_cons_of_mem _ hf)
      simp only [bfsLoop] at hsnap
      by_cases hv : node ∈ visited
      · rw [if_pos hv] at hsnap
        refine ih visited tree fifo hfrt htr (fun p => ?_) snap hsnap
        exact List.Pairwise.sublist
          ((pend_sublist_cons p (node, par) fifo).append_left _) (hsort p)
      · rw [if_neg hv] at hsnap
        have hdesc : (((nbrsDesc g node).filter
            (fun nb => nb ∉ insert node visited))).Sorted (· > ·) :=
          List.Pairwise.sublist (List.filter_sublist _)
            (nbrsDesc_sorted_gt g node (hnd node))
        cases par with
        | none =>
          have hsnap2 : snap ∈ (insert node visited, tree) ::
              (bfsLoop g n (insert node visited) tree
                ((nbrsDesc g node).foldl (fun q nb =>
                  if nb ∉ insert node visited then q ++ [(nb, some node)] else q)
                  fifo)).1 := hsnap
          rw [bfs_push_eq] at hsnap2
          have hfr1 : ∀ f ∈ fifo ++ ((nbrsDesc g node).filter
                (fun nb => nb ∉ insert node visited)).map
                (fun nb => (nb, some node)),
              ∀ q : α, f.2 = some q → q ∈ insert node visited := by
            intro f hf q hq
            rcases List.mem_append.1 hf with hf | hf
            · exact Finset.mem_insert_of_mem (hfrt f hf q hq)
            · obtain ⟨nb, _, rfl⟩ := List.mem_map.1 hf
              exact (Option.some.inj hq) ▸ Finset.mem_insert_self node visited
          have htr1 : ∀ e ∈ tree, e.1 ∈ insert node visited :=
            fun e he => Finset.mem_insert_of_mem (htr e he)
          have hsort1 : ∀ p : α, (treeChildren p tree ++
              pend p (fifo ++ ((nbrsDesc g node).filter
                (fun nb => nb ∉ insert node visited)).map
                (fun nb => (nb, some node)))).Sorted (· > ·) := by
            intro p
            rw [pend_append, pend_map_frames]
            by_cases hp : node = p
            · rw [if_pos hp, ← hp]
              rw [treeChildren_nil_of_parents_visited htr hv,
                pend_nil_of_parents_visited hfrt hv]
              simp only [List.nil_append]
              exact hdesc
            · rw [if_neg hp, List.append_nil]
              have h := hsort p
              rw [pend_cons_none] at h
              exact h
          rw [List.mem_cons] at hsnap2
          rcases hsnap2 with rfl | hsnap2
          · intro p
            exact List.Pairwise.sublist (List.sublist_append_left _ _) (hsort1 p)
          · exact ih (insert node visited) tree _ hfr1 htr1 hsort1 snap hsnap2
        | some pp =>
          have hpp : pp ∈ visited := hfr (node, some pp) (List.mem_cons_self _ _) pp rfl
          have hppn : ¬ pp = node := fun hc => hv (hc ▸ hpp)
          have hsnap2 : snap ∈ (insert node visited, tree ++ [(pp, node)]) ::
              (bfsLoop g n (insert node visited) (tree ++ [(pp, node)])
                ((nbrsDesc g node).foldl (fun q nb =>
                  if nb ∉ insert node visited then q ++ [(nb, some node)] else q)
                  fifo)).1 := hsnap
          rw [bfs_push_eq] at hsnap2
          have hfr1 : ∀ f ∈ fifo ++ ((nbrsDesc g node).filter
                (fun nb => nb ∉ insert node visited)).map
                (fun nb => (nb, some node)),
              ∀ q : α, f.2 = some q → q ∈ insert node visited := by
            intro f hf q hq
            rcases List.mem_append.1 hf with hf | hf
            · exact Finset.mem_insert_of_mem (hfrt f hf q hq)
            · obtain ⟨nb, _, rfl⟩ := List.mem_map.1 hf
              exact (Option.some.inj hq) ▸ Finset.mem_insert_self node visited
          have htr1 : ∀ e ∈ tree ++ [(pp, node)], e.1 ∈ insert node visited := by
            intro e he
            rcases List.mem_append.1 he with he | he
            · exact Finset.mem_insert_of_mem (htr e he)
            · rw [List.mem_singleton.1 he]
              exact Finset.mem_insert_of_mem hpp
          have hsort1 : ∀ p : α, (treeChildren p (tree ++ [(pp, node)]) ++
              pend p (fifo ++ ((nbrsDesc g node).filter
                (fun nb => nb ∉ insert node visited)).map
                (fun nb => (nb, some node)))).Sorted (· > ·) := by
            intro p
            rw [treeChildren_append, treeChildren_single, pend_append,
              pend_map_frames]
            by_cases hp : node = p
            · rw [if_pos hp, if_neg (fun hc => hppn (hc.trans hp.symm)), ← hp]
              rw [treeChildren_nil_of_parents_visited htr hv,
                pend_nil_of_parents_visited hfrt hv]
              simp only [List.nil_append, List.append_nil]
              exact hdesc
            · rw [if_neg hp, List.append_nil]
              have h := hsort p
              rw [pend_cons_some] at h
              by_cases hq : pp = p
              · rw [if_pos hq] at h ⊢
                rw [List.append_assoc]
                exact h
              · rw [if_neg hq] at h ⊢
                rw [List.append_nil]
                rw [List.nil_append] at h
                exact h
          rw [List.mem_cons] at hsnap2
          rcases hsnap2 with rfl | hsnap2
          · intro p
            exact List.Pairwise.sublist (List.sublist_append_left _ _) (hsort1 p)
          · exact ih (insert node visited) (tree ++ [(pp, node)]) _ hfr1 htr1
              hsort1 snap hsnap2

end TraversalOrderMain


section ClaimC3

/-- Claim C3 (amended): in every snapshot of `dfs`, the children recorded
under any one parent (the sibling neighbors that are later visited with that
parent as their tree parent) appear in strictly ascending visit order, while
in every snapshot of `bfs` they appear in strictly *descending* visit order,
because the source enqueues neighbors `sorted(..., reverse=True)` in both
functions; a FIFO preserves that descending order while a LIFO stack
reverses it.  (The original claim — ascending for both, with every
same-step sibling group visited contiguously — is refuted by
`C3_counterexample`.)  The hypothesis asks only that no node's stored
adjacency list repeats a neighbor. -/
theorem C3_tree_sibling_order {α : Type} [LinearOrder α] (g : WGraph α)
    (hnd : ∀ n ∈ g.nodes, (nbrs g n).Nodup) (s : α) :
    (∀ snap ∈ (dfsRun g s).1, ∀ p : α,
      (treeChildren p snap.2).Sorted (· < ·)) ∧
    (∀ snap ∈ (bfsRun g s).1, ∀ p : α,
      (treeChildren p snap.2).Sorted (· > ·)) := by
  have hnd2 : ∀ n, (nbrs g n).Nodup := by
    intro n
    by_cases h : n ∈ g.nodes
    · exact hnd n h
    · rw [nbrs_not_node g n h]
      exact List.nodup_nil
  constructor
  · intro snap hsnap
    refine dfsLoop_children_sorted g hnd2 _ ∅ [] [(s, none)] ?_ ?_ ?_ snap hsnap
    · intro f hf q hq
      rw [List.mem_singleton.1 hf] at hq
      exact absurd hq (by simp)
    · intro e he
      exact absurd he (List.not_mem_nil e)
    · intro p
      rw [pend_cons_none]
      simp [treeChildren, pend]
  · intro snap hsnap
    refine bfsLoop_children_sorted g hnd2 _ ∅ [] [(s, none)] ?_ ?_ ?_ snap hsnap
    · intro f hf q hq
      rw [List.mem_singleton.1 hf] at hq
      exact absurd hq (by simp)
    · intro e he
      exact absurd he (List.not_mem_nil e)
    · intro p
      rw [pend_cons_none]
      simp [treeChildren, pend]

/-- Witness for C3 on the graph `gD` from start `0`. -/
theorem C3_tree_sibling_order_witness :
    (∀ n ∈ gD.nodes, (nbrs gD n).Nodup) ∧
      ((∀ snap ∈ (dfsRun gD 0).1, ∀ p : ℕ,
          (treeChildren p snap.2).Sorted (· < ·)) ∧
        ∀ snap ∈ (bfsRun gD 0).1, ∀ p : ℕ,
          (treeChildren p snap.2).Sorted (· > ·)) :=
  ⟨by decide, C3_tree_sibling_order gD (by decide) 0⟩

end ClaimC3

end Algopy
